import Mathlib

/-!
# Verification of the ORBIT array-cable installation phase and orchestration

This file gives a shallow embedding of `install_array_cables`,
`bury_array_cables` and the trenching pass from
`src/ORBIT/phases/install/cable_install/array.py`, together with small
models (written from the specification) of the pieces of the simulation
kernel and `ProjectManager` that the repository subset only exercises
through its tests.  Theorems about the embedded definitions settle the
behavioural claims about the phase procedure, its location-flag state
machine, the insufficient-cable retry policy, and the orchestrator's
logging and scheduling contracts.

The simulation processes are generator functions in the source; the
embedding turns each process into a pure function from an explicit
simulation state to the list of yielded steps (the trace) plus either the
final state or the `InsufficientCable` error.  Every yield of the source
becomes one `Entry` in the trace, and each entry records a snapshot of the
three vessels' location flags at that suspension point.
-/

namespace Orbit

/-- Keyword-argument dictionaries (`**kwargs` in the source): an ordered
association list from names to numeric values, with Python-dict update
semantics given by `dictInsert`. -/
abbrev Kwargs := List (String × ℚ)

/-- Python dict update `{**kwargs, k: v}`: replace the value of an existing key in
place, otherwise append the new binding. -/
def dictInsert (kw : Kwargs) (k : String) (v : ℚ) : Kwargs :=
  match kw with
  | [] => [(k, v)]
  | p :: rest => if p.1 = k then (k, v) :: rest else p :: dictInsert rest k v

/-- Dictionary lookup. -/
def dictLookup (kw : Kwargs) (k : String) : Option ℚ :=
  match kw with
  | [] => none
  | p :: rest => if p.1 = k then some p.2 else dictLookup rest k

/-- The three agents of `install_array_cables`: the installation (lay)
vessel and the optional burial and trenching vessels. -/
inductive AgentId where
  | install
  | burial
  | trench
deriving DecidableEq

/-- Location flags of a vessel (`vessel.at_port` / `vessel.at_site` in the
source, set by `initialize_installation_vessel` and toggled around transit
steps). -/
structure VFlags where
  at_port : Bool
  at_site : Bool
deriving DecidableEq

/-- One yielded simulation step of the cable-installation processes. -/
inductive Action where
  | loadCable
  | transit
  | positionOnsite
  | prepCable
  | pullInCable
  | terminateCable
  | lowerCable
  | layBuryCable (sec : ℚ) (specs : Kwargs)
  | layCable (sec : ℚ) (specs : Kwargs)
  | buryCable (len : ℚ)
  | digTrench (len : ℚ)
deriving DecidableEq

/-- A cable section tuple `(length, count, optional speed)` from
`cable_sections` in the configuration. -/
abbrev CableSection := ℚ × ℕ × Option ℚ

/-- On-board cable storage pool.  Modelled from the spec: a
capacity-bounded stock `{capacity, level}` (the `CableStorage` class of
`ORBIT/core` is not part of this repository subset). -/
structure CableStorage where
  capacity : ℚ
  level : ℚ
deriving DecidableEq

/-- Modelled from the spec: `reset()` restocks the pool on return to port
(level back to full capacity). -/
def CableStorage.reset (s : CableStorage) : CableStorage :=
  ⟨s.capacity, s.capacity⟩

/-- Modelled from the spec: `get_cable(length)` consumes `length` from the
pool, failing with the insufficient-resource condition (`InsufficientCable`)
exactly when the request exceeds the current level. -/
def CableStorage.get_cable (s : CableStorage) (len : ℚ) :
    Except Unit (ℚ × CableStorage) :=
  if s.level < len then .error ()
  else .ok (len, ⟨s.capacity, s.level - len⟩)

/-- Modelled from the spec: `load_cable_on_vessel` reloads the on-board
storage to full capacity while the vessel is at port. -/
def loadStorage (s : CableStorage) : CableStorage :=
  ⟨s.capacity, s.capacity⟩

/-- The mutable state threaded through `install_array_cables`: the lay
vessel's cable storage, the three vessels' location flags, and the
`to_bury` list of laid-but-unburied section lengths. -/
structure SimState where
  storage : CableStorage
  install : VFlags
  burial : VFlags
  trench : VFlags
  to_bury : List ℚ
deriving DecidableEq

/-- One entry of the trace: which agent's step was yielded, and a snapshot
of all three vessels' location flags at that suspension point. -/
structure Entry where
  agent : AgentId
  act : Action
  install : VFlags
  burial : VFlags
  trench : VFlags
deriving DecidableEq

/-- Record a yielded step together with the current flag snapshot. -/
def SimState.emit (st : SimState) (a : AgentId) (x : Action) : Entry :=
  ⟨a, x, st.install, st.burial, st.trench⟩

/-- Lines 256-264 of `array.py`: fetch the next section from on-board
storage; on `InsufficientCable` the vessel transits to port, reloads,
transits back, and retries `get_cable` once with no surrounding handler,
so a second `InsufficientCable` propagates. -/
def getSectionRetry (len : ℚ) (st : SimState) :
    List Entry × Except Unit (ℚ × SimState) :=
  match st.storage.get_cable len with
  | .ok (sec, stor) => ([], .ok (sec, { st with storage := stor }))
  | .error _ =>
    let es := [st.emit .install .transit, st.emit .install .loadCable,
               st.emit .install .transit]
    let st1 : SimState := { st with storage := loadStorage st.storage }
    match st1.storage.get_cable len with
    | .ok (sec, stor) => (es, .ok (sec, { st1 with storage := stor }))
    | .error e => (es, .error e)

/-- Lines 266-284 of `array.py`: the fixed per-unit laying procedure once
the section is on hand: position onsite, prep, pull-in, terminate, lower,
then the lay step (lay-and-bury without a burial vessel; lay-only plus an
append to `to_bury` with one), then prep, pull-in, terminate. -/
def layUnitSteps (hasBurial : Bool) (specs : Kwargs) (sec : ℚ)
    (st : SimState) : List Entry × SimState :=
  let pre := [st.emit .install .positionOnsite, st.emit .install .prepCable,
              st.emit .install .pullInCable, st.emit .install .terminateCable,
              st.emit .install .lowerCable]
  if hasBurial then
    let st1 : SimState := { st with to_bury := st.to_bury ++ [sec] }
    (pre ++ [st.emit .install (.layCable sec specs),
             st1.emit .install .prepCable, st1.emit .install .pullInCable,
             st1.emit .install .terminateCable], st1)
  else
    (pre ++ [st.emit .install (.layBuryCable sec specs),
             st.emit .install .prepCable, st.emit .install .pullInCable,
             st.emit .install .terminateCable], st)

/-- Lines 254-284 of `array.py`: the `for _ in range(num_sections)` loop
over the units of one section tuple. -/
def layUnits (hasBurial : Bool) (specs : Kwargs) (len : ℚ) :
    ℕ → SimState → List Entry × Except Unit SimState
  | 0, st => ([], .ok st)
  | n + 1, st =>
    let g := getSectionRetry len st
    match g.2 with
    | .error e => (g.1, .error e)
    | .ok (sec, st1) =>
      let q := layUnitSteps hasBurial specs sec st1
      let q2 := layUnits hasBurial specs len n q.2
      (g.1 ++ q.1 ++ q2.1, q2.2)

/-- Lines 234-246 of `array.py`: the keyword arguments passed to the lay
step.  A section tuple carrying a speed forwards it as
`cable_lay_bury_speed` when no burial vessel is configured and as
`cable_lay_speed` when one is; otherwise the incoming kwargs are used
unmodified (`deepcopy(kwargs)`). -/
def sectionSpecs (hasBurial : Bool) (kwargs : Kwargs) (extra : Option ℚ) :
    Kwargs :=
  match extra with
  | some speed =>
    if hasBurial then dictInsert kwargs ("cable_lay_speed") speed
    else dictInsert kwargs ("cable_lay_bury_speed") speed
  | none => kwargs

/-- Lines 232-284 of `array.py`: the `at_site` branch of the while-loop,
popping section tuples until the list is exhausted; the empty-list case is
the `IndexError` branch (lines 248-252: transit back, `at_port := True`,
break). -/
def processSections (hasBurial : Bool) (kwargs : Kwargs) :
    List CableSection → SimState → List Entry × Except Unit SimState
  | [], st =>
    let st1 : SimState := { st with install := ⟨st.install.at_port, false⟩ }
    let e := st1.emit .install .transit
    let st2 : SimState := { st1 with install := ⟨true, st1.install.at_site⟩ }
    ([e], .ok st2)
  | (len, num, extra) :: rest, st =>
    let specs := sectionSpecs hasBurial kwargs extra
    let u := layUnits hasBurial specs len num st
    match u.2 with
    | .error e => (u.1, .error e)
    | .ok st1 =>
      let p := processSections hasBurial kwargs rest st1
      (u.1 ++ p.1, p.2)

/-- Lines 221-289 of `array.py`: one iteration of the lay vessel's cable
loop: storage reset (line 222), the `at_port` branch (load cable, transit
out, `at_site := True`), section processing, and the trailing transit back
of lines 286-289 (which runs in addition to the transit of the
`IndexError` branch). -/
def installOneCable (hasBurial : Bool) (kwargs : Kwargs)
    (secs : List CableSection) (st : SimState) :
    List Entry × Except Unit SimState :=
  let st0 : SimState := { st with storage := st.storage.reset }
  let e1 := st0.emit .install .loadCable
  let st1 : SimState := { st0 with storage := loadStorage st0.storage,
                                   install := ⟨false, st0.install.at_site⟩ }
  let e2 := st1.emit .install .transit
  let st2 : SimState := { st1 with install := ⟨st1.install.at_port, true⟩ }
  let p := processSections hasBurial kwargs secs st2
  match p.2 with
  | .error e => (e1 :: e2 :: p.1, .error e)
  | .ok st3 =>
    let st4 : SimState := { st3 with install := ⟨st3.install.at_port, false⟩ }
    let e3 := st4.emit .install .transit
    let st5 : SimState := { st4 with install := ⟨true, st4.install.at_site⟩ }
    (e1 :: e2 :: (p.1 ++ [e3]), .ok st5)

/-- Lines 221-289 of `array.py`: the lay vessel's loop over all cables. -/
def layCables (hasBurial : Bool) (kwargs : Kwargs) :
    List (List CableSection) → SimState → List Entry × Except Unit SimState
  | [], st => ([], .ok st)
  | secs :: rest, st =>
    let c := installOneCable hasBurial kwargs secs st
    match c.2 with
    | .error e => (c.1, .error e)
    | .ok st1 =>
      let r := layCables hasBurial kwargs rest st1
      (c.1 ++ r.1, r.2)

/-- Lines 200-217 of `array.py`: the trench vessel's `at_site` branch,
which pops tuples from the same `sections` lists the lay loop later reads
(line 203) and spawns `dig_array_cables_trench` for each unit (line 208,
not yielded).  The empty case is the `IndexError` branch (lines 209-213)
followed by the second transit of lines 214-217 that runs after the
break.  Returns the drained section list alongside the trace. -/
def trenchSections : List CableSection → SimState →
    List Entry × List CableSection × SimState
  | [], st =>
    let st1 : SimState := { st with trench := ⟨st.trench.at_port, false⟩ }
    let e := st1.emit .trench .transit
    let st2 : SimState := { st1 with trench := ⟨true, st1.trench.at_site⟩ }
    let st3 : SimState := { st2 with trench := ⟨st2.trench.at_port, false⟩ }
    let e2 := st3.emit .trench .transit
    let st4 : SimState := { st3 with trench := ⟨true, st3.trench.at_site⟩ }
    ([e, e2], [], st4)
  | (len, num, _) :: rest, st =>
    let es := List.replicate num (st.emit .trench (.digTrench len))
    let t := trenchSections rest st
    (es ++ t.1, t.2.1, t.2.2)

/-- Lines 188-217 of `array.py`: the trenching pass over all cables, run
before the lay loop when a trench vessel is configured.  Line 192 resets
the installation vessel's cable storage; the pops at line 203 drain the
shared section lists, so the pass also returns the cable data as the lay
loop will subsequently see it. -/
def trenchCables : List (List CableSection) → SimState →
    List Entry × List (List CableSection) × SimState
  | [], st => ([], [], st)
  | secs :: rest, st =>
    let st0 : SimState := { st with storage := st.storage.reset }
    let st1 : SimState := { st0 with trench := ⟨false, st0.trench.at_site⟩ }
    let e1 := st1.emit .trench .transit
    let st2 : SimState := { st1 with trench := ⟨st1.trench.at_port, true⟩ }
    let t := trenchSections secs st2
    let t2 := trenchCables rest t.2.2
    (e1 :: (t.1 ++ t2.1), t.2.1 :: t2.2.1, t2.2.2)

/-- Lines 301-318 of `array.py`: `bury_array_cables` positions onsite and
buries each laid section, in list order. -/
def bury_array_cables (sections : List ℚ) (st : SimState) :
    List Entry × SimState :=
  match sections with
  | [] => ([], st)
  | len :: rest =>
    let es := [st.emit .burial .positionOnsite,
               st.emit .burial (.buryCable len)]
    let b := bury_array_cables rest st
    (es ++ b.1, b.2)

/-- Lines 162-298 of `array.py`: `install_array_cables`.  The optional
trenching pass runs first (and, via the shared `sections` lists, feeds its
drained cable data to the lay loop); then the lay vessel processes each
cable; and when a burial vessel is configured, `bury_array_cables` runs on
the accumulated `to_bury` list at the end.  The debug-log messages of
lines 291-298 produce no timed steps and are not part of the trace. -/
def install_array_cables (hasBurial hasTrench : Bool) (kwargs : Kwargs)
    (cable_data : List (List CableSection)) (st : SimState) :
    List Entry × Except Unit SimState :=
  let t := if hasTrench then trenchCables cable_data st
           else ([], cable_data, st)
  let l := layCables hasBurial kwargs t.2.1 t.2.2
  match l.2 with
  | .error e => (t.1 ++ l.1, .error e)
  | .ok st2 =>
    if hasBurial then
      let b := bury_array_cables st2.to_bury st2
      (t.1 ++ l.1 ++ b.1, .ok b.2)
    else (t.1 ++ l.1, .ok st2)

/-- The state of the phase as `setup_simulation` creates it: every vessel
initialized with `at_port = True`, `at_site = False` (lines 112-114,
130-132, 148-150 of `array.py`), an empty `to_bury` list, and an empty
cable storage of the given capacity. -/
def initState (cap : ℚ) : SimState :=
  ⟨⟨cap, 0⟩, ⟨true, false⟩, ⟨true, false⟩, ⟨true, false⟩, []⟩

/-- Exactly one of the two location flags is set. -/
def oneOf (f : VFlags) : Prop := f.at_port ≠ f.at_site

/-- Every vessel's location flags satisfy the exactly-one invariant. -/
def stateOK (st : SimState) : Prop :=
  oneOf st.install ∧ oneOf st.burial ∧ oneOf st.trench

/-- At a suspension point, each vessel that is not in its own explicit
transit step has exactly one of `at_port` and `at_site` set. -/
def entryOK (e : Entry) : Prop :=
  (¬(e.agent = .install ∧ e.act = .transit) → oneOf e.install) ∧
  (¬(e.agent = .burial ∧ e.act = .transit) → oneOf e.burial) ∧
  (¬(e.agent = .trench ∧ e.act = .transit) → oneOf e.trench)

/-- The lengths laid by `lay_cable` steps, in trace order. -/
def laidLengths (es : List Entry) : List ℚ :=
  es.filterMap (fun e => match e.act with
    | .layCable s _ => some s
    | _ => none)

/-- The lengths buried by `bury_cable` steps, in trace order. -/
def buriedLengths (es : List Entry) : List ℚ :=
  es.filterMap (fun e => match e.act with
    | .buryCable s => some s
    | _ => none)

/-- How many `lay_bury_cable` steps the trace contains. -/
def layBuryCount (es : List Entry) : ℕ :=
  es.countP (fun e => match e.act with
    | .layBuryCable _ _ => true
    | _ => false)

/-- A heap of section lists addressed by reference, modelling Python's
list aliasing: the configuration's `cable_sections` entries and the
simulation's working copies are cells of this store. -/
abbrev Store := List (List CableSection)

/-- Lines 87-90 of `array.py`: `setup_simulation` builds `cable_data` by
deep-copying each cable's `cable_sections` list, here by allocating a fresh
cell at the end of the store per configuration reference. -/
def setup_copies (store : Store) (refs : List ℕ) : Store × List ℕ :=
  match refs with
  | [] => (store, [])
  | r :: rest =>
    let store1 := store ++ [store.getD r []]
    let p := setup_copies store1 rest
    (p.1, store.length :: p.2)

/-- The destructive effect on a section list of the `pop(0)`-until-
`IndexError` loops of `install_array_cables`: the list is left empty. -/
def drainSections : List CableSection → List CableSection
  | [] => []
  | _ :: rest => drainSections rest

/-- The run's destructive effect on the store: each working-copy cell is
drained in turn by the simulation's pops. -/
def consumeRefs (store : Store) (refs : List ℕ) : Store :=
  match refs with
  | [] => store
  | r :: rest => consumeRefs (store.set r (drainSections (store.getD r []))) rest

/-- Modelled from the spec: one row of the action log, `{agent, end time,
duration}` (the simulation kernel that appends these rows is not part of
this repository subset; the tests read them from `sim.env.actions`). -/
structure LogEntry where
  agent : String
  time : ℚ
  duration : ℚ
deriving DecidableEq

/-- Modelled from the spec: one cooperative process: its agent name, the
end time of its previous action, and its remaining step durations. -/
structure ProcState where
  name : String
  clock : ℚ
  steps : List ℚ
deriving DecidableEq

/-- Modelled from the spec: the pending completions, one per process with
work left, as pairs of process index and next completion time. -/
def nextCands : List ProcState → List (ℕ × ℚ)
  | [] => []
  | p :: rest =>
    let tail := (nextCands rest).map (fun x => (x.1 + 1, x.2))
    match p.steps with
    | [] => tail
    | d :: _ => (0, p.clock + d) :: tail

/-- Modelled from the spec: the scheduler advances to the minimum next
completion among all pending waits; ties resolve to the first process. -/
def pickMin : List (ℕ × ℚ) → Option (ℕ × ℚ)
  | [] => none
  | (i, t) :: rest =>
    match pickMin rest with
    | none => some (i, t)
    | some (j, u) => if t ≤ u then some (i, t) else some (j, u)

/-- Total number of steps left across all processes; one is consumed per
scheduler iteration, so it bounds the iterations needed. -/
def totalSteps (ps : List ProcState) : ℕ :=
  (ps.map (fun p => p.steps.length)).sum

/-- Modelled from the spec: the event-driven scheduler loop: pick the
process with the minimum next completion, append its completed action to
the global log, and advance that process's clock; the run terminates when
no process has further work. -/
def schedRun : ℕ → List ProcState → List LogEntry
  | 0, _ => []
  | fuel + 1, ps =>
    match pickMin (nextCands ps) with
    | none => []
    | some (i, _) =>
      match ps[i]? with
      | none => []
      | some p =>
        match p.steps with
        | [] => []
        | d :: ds =>
          ⟨p.name, p.clock + d, d⟩ ::
            schedRun fuel (ps.set i ⟨p.name, p.clock + d, ds⟩)

/-- Modelled from the spec: every agent's process starts at the phase's
local time zero. -/
def initProcs (agents : List (String × List ℚ)) : List ProcState :=
  agents.map (fun a => ⟨a.1, 0, a.2⟩)

/-- Modelled from the spec: a completed run of one phase: the scheduler is
driven until every agent's work plan is exhausted. -/
def runScheduler (agents : List (String × List ℚ)) : List LogEntry :=
  schedRun (totalSteps (initProcs agents)) (initProcs agents)

/-- The back-to-back log an agent's own steps produce: each action ends
where the previous one ended plus its own duration. -/
def prefixEntries (name : String) : ℚ → List ℚ → List LogEntry
  | _, [] => []
  | t, d :: ds => ⟨name, t + d, d⟩ :: prefixEntries name (t + d) ds

/-- End-times are contiguous from `t`: each action's end time equals the
previous end time plus the action's own duration. -/
def contiguousFrom (t : ℚ) : List LogEntry → Prop
  | [] => True
  | e :: rest => e.time = t + e.duration ∧ contiguousFrom e.time rest

/-- The separators of duplicate-instance phase names: space and
underscore. -/
def isSep (c : Char) : Bool := c = (' ') || c = ('_')

/-- Modelled from the spec: `ProjectManager.find_key_match` resolves a
phase name against the registry of phase class names (the `ProjectManager`
implementation is not part of this repository subset): an exact registered
name wins; otherwise the name is split at separators and its leading token
is looked up; no match reports failure (`PhaseNotFound` in the manager). -/
def find_key_match (registry : List String) (target : String) : Option String :=
  if target ∈ registry then some target
  else
    let base := String.mk (target.toList.takeWhile (fun c => !isSep c))
    if base ∈ registry then some base else none

/-- Modelled from the spec: with a date-keyed `install_phases` mapping each
phase is pinned to an absolute start date and its locally-logged actions
are offset onto the project timeline by 24 hours per calendar day from the
reference date (the `ProjectManager` scheduling code is not part of this
repository subset). -/
def projectActions (startDay : ℤ) (localLog : List LogEntry) : List LogEntry :=
  localLog.map (fun e => ⟨e.agent, e.time + (startDay : ℚ) * 24, e.duration⟩)

/-- The keyword arguments each laying step received, in trace order. -/
def laySpecsList (es : List Entry) : List Kwargs :=
  es.filterMap (fun e => match e.act with
    | .layCable _ sp => some sp
    | .layBuryCable _ sp => some sp
    | _ => none)

/-- How many laying steps of either kind the trace contains. -/
def layActionCount (es : List Entry) : ℕ :=
  es.countP (fun e => match e.act with
    | .layBuryCable _ _ => true
    | .layCable _ _ => true
    | _ => false)

/-- How many cable-loading steps the trace contains. -/
def loadCount (es : List Entry) : ℕ :=
  es.countP (fun e => match e.act with
    | .loadCable => true
    | _ => false)

/-- The location-flag snapshot an entry records for a given vessel. -/
def Entry.vflags (e : Entry) : AgentId → VFlags
  | .install => e.install
  | .burial => e.burial
  | .trench => e.trench

/-- The location flags a state holds for a given vessel. -/
def stFlagsOf (st : SimState) : AgentId → VFlags
  | .install => st.install
  | .burial => st.burial
  | .trench => st.trench

/-- Whether an entry is the given vessel's own explicit transit step. -/
def Entry.isTransit (e : Entry) (v : AgentId) : Bool :=
  decide (e.agent = v ∧ e.act = Action.transit)

/-- Along a trace, the vessel's flag snapshot changes between consecutive
suspension points only when one of the two adjacent points is that vessel's
own explicit transit step; `f` is the snapshot before the segment and `pt`
whether the point just before the segment was such a transit (`false` at
the start of a run, so a change at the first suspension point needs that
point itself to be the vessel's transit). -/
def flagsChain (v : AgentId) : VFlags → Bool → List Entry → Prop
  | _, _, [] => True
  | f, pt, e :: rest =>
    (f ≠ e.vflags v → (pt = true ∨ e.isTransit v = true)) ∧
    flagsChain v (e.vflags v) (e.isTransit v) rest

/-- As `flagsChain`, and in addition the vessel's flags in the final state
differ from the last snapshot only when the last suspension point was the
vessel's own transit step; this is the form that composes across sequenced
trace segments. -/
def flagsSeg (v : AgentId) : VFlags → Bool → List Entry → VFlags → Prop
  | f, pt, [], g => f ≠ g → pt = true
  | f, pt, e :: rest, g =>
    (f ≠ e.vflags v → (pt = true ∨ e.isTransit v = true)) ∧
    flagsSeg v (e.vflags v) (e.isTransit v) rest g


lemma bury_array_cables_entries (l : List ℚ) (st : SimState) :
    ∀ e ∈ (bury_array_cables l st).1,
      e.agent = .burial ∧ e.install = st.install ∧ e.burial = st.burial ∧
      e.trench = st.trench ∧
      (e.act = .positionOnsite ∨ ∃ len, e.act = .buryCable len) := by
  induction l generalizing st with
  | nil => simp [bury_array_cables]
  | cons x rest ih =>
    intro e he
    simp only [bury_array_cables, List.cons_append, List.nil_append,
      List.mem_cons] at he
    rcases he with rfl | rfl | he
    · simp [SimState.emit]
    · simp [SimState.emit]
    · exact ih st e he

lemma entryOK_of_flags (e : Entry) (h1 : oneOf e.install) (h2 : oneOf e.burial)
    (h3 : oneOf e.trench) : entryOK e :=
  ⟨fun _ => h1, fun _ => h2, fun _ => h3⟩

lemma getSectionRetry_entryOK (len : ℚ) (st : SimState) (h : stateOK st) :
    (∀ e ∈ (getSectionRetry len st).1, entryOK e) ∧
    (∀ sec st1, (getSectionRetry len st).2 = .ok (sec, st1) → stateOK st1) := by
  obtain ⟨h1, h2, h3⟩ := h
  unfold getSectionRetry
  cases hg : st.storage.get_cable len with
  | ok p =>
    refine ⟨by simp, ?_⟩
    intro sec st1 hok
    simp at hok
    obtain ⟨-, rfl⟩ := hok
    exact ⟨h1, h2, h3⟩
  | error e =>
    cases hg2 : (loadStorage st.storage).get_cable len with
    | ok p =>
      simp only [hg2]
      refine ⟨?_, ?_⟩
      · intro e2 he
        simp [SimState.emit] at he
        rcases he with rfl | rfl | rfl <;> exact entryOK_of_flags _ h1 h2 h3
      · intro sec st1 hok
        simp at hok
        obtain ⟨-, rfl⟩ := hok
        exact ⟨h1, h2, h3⟩
    | error e2 =>
      simp only [hg2]
      refine ⟨?_, by simp⟩
      intro e3 he
      simp [SimState.emit] at he
      rcases he with rfl | rfl | rfl <;> exact entryOK_of_flags _ h1 h2 h3

lemma layUnitSteps_entryOK (hasBurial : Bool) (specs : Kwargs) (sec : ℚ)
    (st : SimState) (h : stateOK st) :
    (∀ e ∈ (layUnitSteps hasBurial specs sec st).1, entryOK e) ∧
    stateOK (layUnitSteps hasBurial specs sec st).2 := by
  obtain ⟨h1, h2, h3⟩ := h
  unfold layUnitSteps
  cases hasBurial <;>
  · refine ⟨?_, ⟨h1, h2, h3⟩⟩
    intro e he
    simp [SimState.emit] at he
    rcases he with rfl | rfl | rfl | rfl | rfl | rfl | rfl | rfl | rfl <;>
      exact entryOK_of_flags _ h1 h2 h3

lemma layUnits_entryOK (hasBurial : Bool) (specs : Kwargs) (len : ℚ) (n : ℕ)
    (st : SimState) (h : stateOK st) :
    (∀ e ∈ (layUnits hasBurial specs len n st).1, entryOK e) ∧
    (∀ st1, (layUnits hasBurial specs len n st).2 = .ok st1 → stateOK st1) := by
  induction n generalizing st with
  | zero =>
    refine ⟨by simp [layUnits], ?_⟩
    intro st1 hok
    simp [layUnits] at hok
    exact hok ▸ h
  | succ n ih =>
    simp only [layUnits]
    cases hg : (getSectionRetry len st).2 with
    | error e =>
      refine ⟨fun e2 he => (getSectionRetry_entryOK len st ⟨h.1, h.2.1, h.2.2⟩).1 e2 he,
        by simp⟩
    | ok p =>
      cases p with
      | mk sec st1 =>
        have hst1 : stateOK st1 :=
          (getSectionRetry_entryOK len st h).2 sec st1 hg
        have hq := layUnitSteps_entryOK hasBurial specs sec st1 hst1
        have hrec := ih (layUnitSteps hasBurial specs sec st1).2 hq.2
        refine ⟨?_, hrec.2⟩
        intro e2 he
        simp only [List.append_assoc, List.mem_append] at he
        rcases he with he | he | he
        · exact (getSectionRetry_entryOK len st h).1 e2 he
        · exact hq.1 e2 he
        · exact hrec.1 e2 he

lemma processSections_entryOK (hasBurial : Bool) (kwargs : Kwargs)
    (secs : List CableSection) (st : SimState) (h : stateOK st) :
    (∀ e ∈ (processSections hasBurial kwargs secs st).1, entryOK e) ∧
    (∀ st1, (processSections hasBurial kwargs secs st).2 = .ok st1 → stateOK st1) := by
  induction secs generalizing st with
  | nil =>
    obtain ⟨h1, h2, h3⟩ := h
    refine ⟨?_, ?_⟩
    · intro e he
      simp [processSections, SimState.emit] at he
      subst he
      exact ⟨fun hc => absurd ⟨rfl, rfl⟩ hc, fun _ => h2, fun _ => h3⟩
    · intro st1 hok
      simp [processSections] at hok
      subst hok
      exact ⟨by simp [oneOf], h2, h3⟩
  | cons sec rest ih =>
    obtain ⟨len, num, extra⟩ := sec
    simp only [processSections]
    cases hu : (layUnits hasBurial (sectionSpecs hasBurial kwargs extra) len num st).2 with
    | error e =>
      refine ⟨fun e2 he => (layUnits_entryOK _ _ _ _ st h).1 e2 he, by simp⟩
    | ok st1 =>
      have hst1 : stateOK st1 := (layUnits_entryOK _ _ _ _ st h).2 st1 hu
      have hrec := ih st1 hst1
      refine ⟨?_, hrec.2⟩
      intro e2 he
      simp only [List.mem_append] at he
      rcases he with he | he
      · exact (layUnits_entryOK _ _ _ _ st h).1 e2 he
      · exact hrec.1 e2 he

lemma installOneCable_entryOK (hasBurial : Bool) (kwargs : Kwargs)
    (secs : List CableSection) (st : SimState) (h : stateOK st) :
    (∀ e ∈ (installOneCable hasBurial kwargs secs st).1, entryOK e) ∧
    (∀ st1, (installOneCable hasBurial kwargs secs st).2 = .ok st1 → stateOK st1) := by
  obtain ⟨h1, h2, h3⟩ := h
  have hst2 : stateOK (⟨⟨st.storage.capacity, st.storage.capacity⟩, ⟨false, true⟩,
      st.burial, st.trench, st.to_bury⟩ : SimState) := ⟨by simp [oneOf], h2, h3⟩
  have hP := processSections_entryOK hasBurial kwargs secs _ hst2
  simp only [installOneCable, loadStorage, CableStorage.reset]
  cases hp : (processSections hasBurial kwargs secs
      (⟨⟨st.storage.capacity, st.storage.capacity⟩, ⟨false, true⟩,
        st.burial, st.trench, st.to_bury⟩ : SimState)).2 with
  | error e =>
    refine ⟨?_, by simp⟩
    intro e2 he
    simp only [List.mem_cons] at he
    rcases he with rfl | rfl | he
    · exact entryOK_of_flags _ h1 h2 h3
    · exact ⟨fun hc => absurd ⟨rfl, rfl⟩ hc, fun _ => h2, fun _ => h3⟩
    · exact hP.1 e2 he
  | ok st3 =>
    have hst3 : stateOK st3 := hP.2 st3 hp
    refine ⟨?_, ?_⟩
    · intro e2 he
      simp only [List.mem_cons, List.mem_append, List.not_mem_nil, or_false] at he
      rcases he with rfl | rfl | he | rfl
      · exact entryOK_of_flags _ h1 h2 h3
      · exact ⟨fun hc => absurd ⟨rfl, rfl⟩ hc, fun _ => h2, fun _ => h3⟩
      · exact hP.1 e2 he
      · exact ⟨fun hc => absurd ⟨rfl, rfl⟩ hc, fun _ => hst3.2.1, fun _ => hst3.2.2⟩
    · intro st1 hok
      simp at hok
      subst hok
      exact ⟨by simp [oneOf], hst3.2.1, hst3.2.2⟩

lemma layCables_entryOK (hasBurial : Bool) (kwargs : Kwargs)
    (cable_data : List (List CableSection)) (st : SimState) (h : stateOK st) :
    (∀ e ∈ (layCables hasBurial kwargs cable_data st).1, entryOK e) ∧
    (∀ st1, (layCables hasBurial kwargs cable_data st).2 = .ok st1 → stateOK st1) := by
  induction cable_data generalizing st with
  | nil =>
    refine ⟨by simp [layCables], ?_⟩
    intro st1 hok
    simp [layCables] at hok
    exact hok ▸ h
  | cons secs rest ih =>
    simp only [layCables]
    cases hc : (installOneCable hasBurial kwargs secs st).2 with
    | error e =>
      refine ⟨fun e2 he => (installOneCable_entryOK _ _ _ st h).1 e2 he, by simp⟩
    | ok st1 =>
      have hst1 : stateOK st1 := (installOneCable_entryOK _ _ _ st h).2 st1 hc
      have hrec := ih st1 hst1
      refine ⟨?_, hrec.2⟩
      intro e2 he
      simp only [List.mem_append] at he
      rcases he with he | he
      · exact (installOneCable_entryOK _ _ _ st h).1 e2 he
      · exact hrec.1 e2 he

lemma trenchSections_entryOK (secs : List CableSection) (st : SimState)
    (h : stateOK st) :
    (∀ e ∈ (trenchSections secs st).1, entryOK e) ∧
    stateOK (trenchSections secs st).2.2 := by
  induction secs generalizing st with
  | nil =>
    obtain ⟨h1, h2, h3⟩ := h
    simp only [trenchSections]
    refine ⟨?_, ⟨h1, h2, by simp [oneOf]⟩⟩
    intro e he
    simp [SimState.emit] at he
    rcases he with rfl | rfl <;>
      exact ⟨fun _ => h1, fun _ => h2, fun hc => absurd ⟨rfl, rfl⟩ hc⟩
  | cons sec rest ih =>
    obtain ⟨len, num, extra⟩ := sec
    obtain ⟨h1, h2, h3⟩ := h
    simp only [trenchSections]
    refine ⟨?_, (ih st ⟨h1, h2, h3⟩).2⟩
    intro e he
    simp only [List.mem_append, List.mem_replicate] at he
    rcases he with ⟨-, rfl⟩ | he
    · exact entryOK_of_flags _ h1 h2 h3
    · exact (ih st ⟨h1, h2, h3⟩).1 e he

lemma trenchCables_entryOK (cable_data : List (List CableSection)) (st : SimState)
    (h : stateOK st) :
    (∀ e ∈ (trenchCables cable_data st).1, entryOK e) ∧
    stateOK (trenchCables cable_data st).2.2 := by
  induction cable_data generalizing st with
  | nil => exact ⟨by simp [trenchCables], h⟩
  | cons secs rest ih =>
    obtain ⟨h1, h2, h3⟩ := h
    have hst2 : stateOK (⟨⟨st.storage.capacity, st.storage.capacity⟩, st.install,
        st.burial, ⟨false, true⟩, st.to_bury⟩ : SimState) := ⟨h1, h2, by simp [oneOf]⟩
    have hT := trenchSections_entryOK secs _ hst2
    have hrec := ih _ hT.2
    simp only [trenchCables, CableStorage.reset]
    refine ⟨?_, hrec.2⟩
    intro e he
    simp only [List.mem_cons, List.mem_append] at he
    rcases he with rfl | he | he
    · exact ⟨fun _ => h1, fun _ => h2, fun hc => absurd ⟨rfl, rfl⟩ hc⟩
    · exact hT.1 e he
    · exact hrec.1 e he

lemma bury_entryOK (l : List ℚ) (st : SimState) (h : stateOK st) :
    ∀ e ∈ (bury_array_cables l st).1, entryOK e := by
  intro e he
  obtain ⟨-, hi, hb, ht, -⟩ := bury_array_cables_entries l st e he
  exact entryOK_of_flags e (by rw [hi]; exact h.1) (by rw [hb]; exact h.2.1)
    (by rw [ht]; exact h.2.2)

lemma laidLengths_append (a b : List Entry) :
    laidLengths (a ++ b) = laidLengths a ++ laidLengths b :=
  List.filterMap_append a b _

lemma buriedLengths_append (a b : List Entry) :
    buriedLengths (a ++ b) = buriedLengths a ++ buriedLengths b :=
  List.filterMap_append a b _

lemma layBuryCount_append (a b : List Entry) :
    layBuryCount (a ++ b) = layBuryCount a + layBuryCount b :=
  List.countP_append _ a b

lemma getSectionRetry_bury (len : ℚ) (st : SimState) :
    laidLengths (getSectionRetry len st).1 = [] ∧
    buriedLengths (getSectionRetry len st).1 = [] ∧
    layBuryCount (getSectionRetry len st).1 = 0 ∧
    (∀ sec st1, (getSectionRetry len st).2 = .ok (sec, st1) →
      sec = len ∧ st1.to_bury = st.to_bury) := by
  have hget : ∀ (c : CableStorage) s stor, c.get_cable len = .ok (s, stor) → s = len := by
    intro c s stor hg
    unfold CableStorage.get_cable at hg
    split at hg
    · cases hg
    · rw [Except.ok.injEq, Prod.mk.injEq] at hg
      exact hg.1.symm
  unfold getSectionRetry
  cases hg : st.storage.get_cable len with
  | ok p =>
    cases p with
    | mk s stor =>
      refine ⟨rfl, rfl, rfl, ?_⟩
      intro sec st1 hok
      simp at hok
      obtain ⟨rfl, rfl⟩ := hok
      exact ⟨hget _ _ _ hg, rfl⟩
  | error e =>
    cases hg2 : (loadStorage st.storage).get_cable len with
    | ok p =>
      cases p with
      | mk s stor =>
        simp only [hg2]
        refine ⟨?_, ?_, ?_, ?_⟩
        · simp [laidLengths, SimState.emit]
        · simp [buriedLengths, SimState.emit]
        · simp [layBuryCount, SimState.emit]
        · intro sec st1 hok
          simp at hok
          obtain ⟨rfl, rfl⟩ := hok
          exact ⟨hget _ _ _ hg2, rfl⟩
    | error e2 =>
      simp only [hg2]
      refine ⟨?_, ?_, ?_, by simp⟩
      · simp [laidLengths, SimState.emit]
      · simp [buriedLengths, SimState.emit]
      · simp [layBuryCount, SimState.emit]

lemma layUnitSteps_bury (specs : Kwargs) (sec : ℚ) (st : SimState) :
    laidLengths (layUnitSteps true specs sec st).1 = [sec] ∧
    buriedLengths (layUnitSteps true specs sec st).1 = [] ∧
    layBuryCount (layUnitSteps true specs sec st).1 = 0 ∧
    (layUnitSteps true specs sec st).2.to_bury = st.to_bury ++ [sec] := by
  simp [layUnitSteps, laidLengths, buriedLengths, layBuryCount, SimState.emit]

lemma layUnits_bury (specs : Kwargs) (len : ℚ) (n : ℕ) (st : SimState) :
    buriedLengths (layUnits true specs len n st).1 = [] ∧
    layBuryCount (layUnits true specs len n st).1 = 0 ∧
    (∀ st1, (layUnits true specs len n st).2 = .ok st1 →
      st1.to_bury = st.to_bury ++ laidLengths (layUnits true specs len n st).1) := by
  induction n generalizing st with
  | zero =>
    refine ⟨rfl, rfl, ?_⟩
    intro st1 hok
    simp [layUnits] at hok
    simp [layUnits, laidLengths, hok]
  | succ n ih =>
    simp only [layUnits]
    cases hg : (getSectionRetry len st).2 with
    | error e =>
      have hb := getSectionRetry_bury len st
      exact ⟨hb.2.1, hb.2.2.1, by simp⟩
    | ok p =>
      cases p with
      | mk sec st1 =>
        have hb := getSectionRetry_bury len st
        obtain ⟨hsec1, hbury1⟩ := hb.2.2.2 sec st1 hg
        subst hsec1
        have hq := layUnitSteps_bury specs sec st1
        have hrec := ih (layUnitSteps true specs sec st1).2
        refine ⟨?_, ?_, ?_⟩
        · simp [buriedLengths_append, hb.2.1, hq.2.1, hrec.1]
        · simp [layBuryCount_append, hb.2.2.1, hq.2.2.1, hrec.2.1]
        · intro st2 hok
          rw [hrec.2.2 st2 hok, hq.2.2.2, hbury1]
          simp [laidLengths_append, hb.1, hq.1]

lemma processSections_bury (kwargs : Kwargs) (secs : List CableSection)
    (st : SimState) :
    buriedLengths (processSections true kwargs secs st).1 = [] ∧
    layBuryCount (processSections true kwargs secs st).1 = 0 ∧
    (∀ st1, (processSections true kwargs secs st).2 = .ok st1 →
      st1.to_bury = st.to_bury ++ laidLengths (processSections true kwargs secs st).1) := by
  induction secs generalizing st with
  | nil =>
    refine ⟨?_, ?_, ?_⟩
    · simp [processSections, buriedLengths, SimState.emit]
    · simp [processSections, layBuryCount, SimState.emit]
    · intro st1 hok
      simp [processSections] at hok
      subst hok
      simp [processSections, laidLengths, SimState.emit]
  | cons sec rest ih =>
    obtain ⟨len, num, extra⟩ := sec
    simp only [processSections]
    cases hu : (layUnits true (sectionSpecs true kwargs extra) len num st).2 with
    | error e =>
      have hb := layUnits_bury (sectionSpecs true kwargs extra) len num st
      exact ⟨hb.1, hb.2.1, by simp⟩
    | ok st1 =>
      have hb := layUnits_bury (sectionSpecs true kwargs extra) len num st
      have hrec := ih st1
      refine ⟨?_, ?_, ?_⟩
      · simp [buriedLengths_append, hb.1, hrec.1]
      · simp [layBuryCount_append, hb.2.1, hrec.2.1]
      · intro st2 hok
        rw [hrec.2.2 st2 hok, hb.2.2 st1 hu]
        simp [laidLengths_append]

lemma installOneCable_bury (kwargs : Kwargs) (secs : List CableSection)
    (st : SimState) :
    buriedLengths (installOneCable true kwargs secs st).1 = [] ∧
    layBuryCount (installOneCable true kwargs secs st).1 = 0 ∧
    (∀ st1, (installOneCable true kwargs secs st).2 = .ok st1 →
      st1.to_bury = st.to_bury ++ laidLengths (installOneCable true kwargs secs st).1) := by
  have hP := processSections_bury kwargs secs
      (⟨⟨st.storage.capacity, st.storage.capacity⟩, ⟨false, true⟩,
        st.burial, st.trench, st.to_bury⟩ : SimState)
  simp only [installOneCable, loadStorage, CableStorage.reset]
  cases hp : (processSections true kwargs secs
      (⟨⟨st.storage.capacity, st.storage.capacity⟩, ⟨false, true⟩,
        st.burial, st.trench, st.to_bury⟩ : SimState)).2 with
  | error e =>
    refine ⟨?_, ?_, by simp⟩
    · simpa [buriedLengths, SimState.emit] using hP.1
    · simpa [layBuryCount, SimState.emit] using hP.2.1
  | ok st3 =>
    refine ⟨?_, ?_, ?_⟩
    · simpa [buriedLengths, buriedLengths_append, SimState.emit] using hP.1
    · simpa [layBuryCount, layBuryCount_append, SimState.emit] using hP.2.1
    · intro st1 hok
      simp at hok
      subst hok
      have h3 := hP.2.2 st3 hp
      simp only [h3]
      simp [laidLengths, laidLengths_append, SimState.emit]

lemma layCables_bury (kwargs : Kwargs) (cable_data : List (List CableSection))
    (st : SimState) :
    buriedLengths (layCables true kwargs cable_data st).1 = [] ∧
    layBuryCount (layCables true kwargs cable_data st).1 = 0 ∧
    (∀ st1, (layCables true kwargs cable_data st).2 = .ok st1 →
      st1.to_bury = st.to_bury ++ laidLengths (layCables true kwargs cable_data st).1) := by
  induction cable_data generalizing st with
  | nil =>
    refine ⟨rfl, rfl, ?_⟩
    intro st1 hok
    simp [layCables] at hok
    simp [layCables, laidLengths, hok]
  | cons secs rest ih =>
    simp only [layCables]
    cases hc : (installOneCable true kwargs secs st).2 with
    | error e =>
      have hb := installOneCable_bury kwargs secs st
      exact ⟨hb.1, hb.2.1, by simp⟩
    | ok st1 =>
      have hb := installOneCable_bury kwargs secs st
      have hrec := ih st1
      refine ⟨?_, ?_, ?_⟩
      · simp [buriedLengths_append, hb.1, hrec.1]
      · simp [layBuryCount_append, hb.2.1, hrec.2.1]
      · intro st2 hok
        rw [hrec.2.2 st2 hok, hb.2.2 st1 hc]
        simp [laidLengths_append]

lemma trenchSections_bury (secs : List CableSection) (st : SimState) :
    laidLengths (trenchSections secs st).1 = [] ∧
    buriedLengths (trenchSections secs st).1 = [] ∧
    layBuryCount (trenchSections secs st).1 = 0 ∧
    (trenchSections secs st).2.2.to_bury = st.to_bury := by
  induction secs generalizing st with
  | nil =>
    simp [trenchSections, laidLengths, buriedLengths, layBuryCount, SimState.emit]
  | cons sec rest ih =>
    obtain ⟨len, num, extra⟩ := sec
    simp only [trenchSections]
    have hrec := ih st
    refine ⟨?_, ?_, ?_, hrec.2.2.2⟩
    · simp only [laidLengths_append, hrec.1]
      simp [laidLengths, List.filterMap_replicate, SimState.emit]
    · simp only [buriedLengths_append, hrec.2.1]
      simp [buriedLengths, List.filterMap_replicate, SimState.emit]
    · simp only [layBuryCount_append, hrec.2.2.1]
      simp [layBuryCount, List.countP_replicate, SimState.emit]

lemma trenchCables_bury (cable_data : List (List CableSection)) (st : SimState) :
    laidLengths (trenchCables cable_data st).1 = [] ∧
    buriedLengths (trenchCables cable_data st).1 = [] ∧
    layBuryCount (trenchCables cable_data st).1 = 0 ∧
    (trenchCables cable_data st).2.2.to_bury = st.to_bury := by
  induction cable_data generalizing st with
  | nil => simp [trenchCables, laidLengths, buriedLengths, layBuryCount]
  | cons secs rest ih =>
    simp only [trenchCables, CableStorage.reset]
    have hT := trenchSections_bury secs
      (⟨⟨st.storage.capacity, st.storage.capacity⟩, st.install,
        st.burial, ⟨false, true⟩, st.to_bury⟩ : SimState)
    have hrec := ih (trenchSections secs
      (⟨⟨st.storage.capacity, st.storage.capacity⟩, st.install,
        st.burial, ⟨false, true⟩, st.to_bury⟩ : SimState)).2.2
    refine ⟨?_, ?_, ?_, ?_⟩
    · simp [laidLengths, laidLengths_append, SimState.emit] at hT hrec ⊢
      exact ⟨hT.1, hrec.1⟩
    · simp [buriedLengths, buriedLengths_append, SimState.emit] at hT hrec ⊢
      exact ⟨hT.2.1, hrec.2.1⟩
    · simp [layBuryCount, layBuryCount_append, SimState.emit] at hT hrec ⊢
      exact ⟨hT.2.2.1, hrec.2.2.1⟩
    · rw [hrec.2.2.2, hT.2.2.2]

lemma bury_array_cables_buried (l : List ℚ) (st : SimState) :
    buriedLengths (bury_array_cables l st).1 = l ∧
    laidLengths (bury_array_cables l st).1 = [] ∧
    layBuryCount (bury_array_cables l st).1 = 0 := by
  induction l generalizing st with
  | nil => simp [bury_array_cables, buriedLengths, laidLengths, layBuryCount]
  | cons x rest ih =>
    simp only [bury_array_cables]
    have hrec := ih st
    refine ⟨?_, ?_, ?_⟩
    · simp [buriedLengths, buriedLengths_append, SimState.emit] at hrec ⊢
      exact hrec.1
    · simp [laidLengths, laidLengths_append, SimState.emit] at hrec ⊢
      exact hrec.2.1
    · simp [layBuryCount, layBuryCount_append, SimState.emit] at hrec ⊢
      exact hrec.2.2

lemma bury_array_cables_state2 (l : List ℚ) (st : SimState) :
    (bury_array_cables l st).2 = st := by
  induction l generalizing st with
  | nil => rfl
  | cons x rest ih => simp only [bury_array_cables]; exact ih st

/-- Claim C5: with a burial vessel configured, a completed run performs no
`lay_bury_cable` at all, appends each laid section to the burial list, and
`bury_array_cables` buries exactly the laid sections, one bury action per
laid section, in the order they were laid. -/
theorem burial_buries_exactly_laid_sections (hasTrench : Bool) (kwargs : Kwargs)
    (cable_data : List (List CableSection)) (st st3 : SimState)
    (hb : st.to_bury = [])
    (hok : (install_array_cables true hasTrench kwargs cable_data st).2 = .ok st3) :
    layBuryCount (install_array_cables true hasTrench kwargs cable_data st).1 = 0 ∧
    buriedLengths (install_array_cables true hasTrench kwargs cable_data st).1 =
      laidLengths (install_array_cables true hasTrench kwargs cable_data st).1 ∧
    st3.to_bury = laidLengths (install_array_cables true hasTrench kwargs cable_data st).1 := by
  simp only [install_array_cables] at hok ⊢
  cases hasTrench with
  | false =>
    simp only [Bool.false_eq_true, if_false] at hok ⊢
    cases hl : (layCables true kwargs cable_data st).2 with
    | error e => rw [hl] at hok; cases hok
    | ok st2 =>
      rw [hl] at hok
      simp only [if_true] at hok
      simp only [hl, if_true, List.nil_append]
      have hlay := layCables_bury kwargs cable_data st
      have h2 : st2.to_bury = laidLengths (layCables true kwargs cable_data st).1 := by
        rw [hlay.2.2 st2 hl, hb]; simp
      have hbury := bury_array_cables_buried st2.to_bury st2
      have hst3 : st3 = st2 := by
        rw [bury_array_cables_state2] at hok
        exact (Except.ok.inj hok).symm
      refine ⟨?_, ?_, ?_⟩
      · rw [layBuryCount_append, hlay.2.1, hbury.2.2]
      · rw [buriedLengths_append, laidLengths_append, hlay.1, hbury.1,
          hbury.2.1, h2]
        simp
      · rw [laidLengths_append, hbury.2.1, hst3, h2]
        simp
  | true =>
    simp only [if_true] at hok ⊢
    have hT := trenchCables_bury cable_data st
    cases hl : (layCables true kwargs (trenchCables cable_data st).2.1
        (trenchCables cable_data st).2.2).2 with
    | error e => rw [hl] at hok; cases hok
    | ok st2 =>
      rw [hl] at hok
      simp only [if_true] at hok
      simp only [hl, if_true]
      have hlay := layCables_bury kwargs (trenchCables cable_data st).2.1
        (trenchCables cable_data st).2.2
      have h2 : st2.to_bury = laidLengths (layCables true kwargs
          (trenchCables cable_data st).2.1 (trenchCables cable_data st).2.2).1 := by
        rw [hlay.2.2 st2 hl, hT.2.2.2, hb]; simp
      have hbury := bury_array_cables_buried st2.to_bury st2
      have hst3 : st3 = st2 := by
        rw [bury_array_cables_state2] at hok
        exact (Except.ok.inj hok).symm
      refine ⟨?_, ?_, ?_⟩
      · rw [layBuryCount_append, layBuryCount_append, hT.2.2.1, hlay.2.1, hbury.2.2]
      · rw [buriedLengths_append, buriedLengths_append, laidLengths_append,
          laidLengths_append, hT.1, hT.2.1, hlay.1, hbury.1, hbury.2.1, h2]
        simp
      · rw [laidLengths_append, laidLengths_append, hT.1, hbury.2.1, hst3, h2]
        simp

lemma drainSections_eq_nil (l : List CableSection) : drainSections l = [] := by
  induction l with
  | nil => rfl
  | cons x rest ih => simp [drainSections, ih]

lemma getD_mem_of_lt {l : List ℕ} {i : ℕ} (h : i < l.length) : l.getD i 0 ∈ l := by
  rw [List.getD_eq_getElem?_getD, List.getElem?_eq_getElem h]
  simp [List.getElem_mem h]

lemma setup_copies_extend (store : Store) (refs : List ℕ) :
    ∃ ext, (setup_copies store refs).1 = store ++ ext := by
  induction refs generalizing store with
  | nil => exact ⟨[], by simp [setup_copies]⟩
  | cons r rest ih =>
    obtain ⟨ext, hext⟩ := ih (store ++ [store.getD r []])
    refine ⟨store.getD r [] :: ext, ?_⟩
    simp only [setup_copies]
    rw [hext, List.append_assoc]
    rfl

lemma setup_copies_length (store : Store) (refs : List ℕ) :
    (setup_copies store refs).1.length = store.length + refs.length := by
  induction refs generalizing store with
  | nil => simp [setup_copies]
  | cons r rest ih =>
    simp only [setup_copies]
    rw [ih]
    simp
    omega

lemma setup_copies_refs (store : Store) (refs : List ℕ) :
    (setup_copies store refs).2 = List.range' store.length refs.length := by
  induction refs generalizing store with
  | nil => simp [setup_copies]
  | cons r rest ih =>
    simp [setup_copies, ih, List.range'_succ]

lemma setup_copies_content (store : Store) (refs : List ℕ)
    (h : ∀ r ∈ refs, r < store.length) :
    ∀ i < refs.length,
      (setup_copies store refs).1.getD ((setup_copies store refs).2.getD i 0) [] =
        store.getD (refs.getD i 0) [] := by
  induction refs generalizing store with
  | nil => simp
  | cons r rest ih =>
    intro i hi
    simp only [setup_copies]
    cases i with
    | zero =>
      obtain ⟨ext, hext⟩ := setup_copies_extend (store ++ [store.getD r []]) rest
      simp only [List.getD_cons_zero, hext]
      rw [List.getD_eq_getElem?_getD, List.getD_eq_getElem?_getD,
        List.getElem?_append_left (by simp), List.getElem?_append_right (by omega)]
      simp
    | succ i =>
      have h2 : ∀ r2 ∈ rest, r2 < (store ++ [store.getD r []]).length := by
        intro r2 hr2
        have := h r2 (List.mem_cons_of_mem r hr2)
        simp
        omega
      have hmem : rest.getD i 0 ∈ rest := getD_mem_of_lt (by simpa using hi)
      have := ih (store ++ [store.getD r []]) h2 i (by simpa using hi)
      simp only [List.getD_cons_succ]
      rw [this, List.getD_eq_getElem?_getD, List.getD_eq_getElem?_getD,
        List.getElem?_append_left (h (rest.getD i 0) (List.mem_cons_of_mem r hmem))]
      simp

lemma consumeRefs_length (store : Store) (refs : List ℕ) :
    (consumeRefs store refs).length = store.length := by
  induction refs generalizing store with
  | nil => rfl
  | cons r rest ih =>
    simp only [consumeRefs]
    rw [ih]
    simp

lemma consumeRefs_low (store : Store) (refs : List ℕ) (n : ℕ)
    (h : ∀ r ∈ refs, n ≤ r) :
    ∀ i < n, (consumeRefs store refs).getD i [] = store.getD i [] := by
  induction refs generalizing store with
  | nil => simp [consumeRefs]
  | cons r rest ih =>
    intro i hi
    simp only [consumeRefs]
    rw [ih _ (fun r2 hr2 => h r2 (List.mem_cons_of_mem r hr2)) i hi]
    rw [List.getD_eq_getElem?_getD, List.getD_eq_getElem?_getD]
    rw [List.getElem?_set_ne (by have := h r (List.mem_cons_self r rest); omega)]
    simp

lemma consumeRefs_preserve_ne (store : Store) (refs : List ℕ) (i : ℕ)
    (h : ∀ r ∈ refs, r ≠ i) :
    (consumeRefs store refs).getD i [] = store.getD i [] := by
  induction refs generalizing store with
  | nil => rfl
  | cons r rest ih =>
    simp only [consumeRefs]
    rw [ih _ (fun r2 hr2 => h r2 (List.mem_cons_of_mem r hr2))]
    rw [List.getD_eq_getElem?_getD, List.getD_eq_getElem?_getD]
    rw [List.getElem?_set_ne (h r (List.mem_cons_self r rest))]
    simp

lemma consumeRefs_drained (store : Store) (refs : List ℕ) (hnd : refs.Nodup) :
    ∀ r ∈ refs, r < store.length → (consumeRefs store refs).getD r [] = [] := by
  induction refs generalizing store with
  | nil => simp
  | cons r2 rest ih =>
    intro r hr hlt
    simp only [consumeRefs]
    rcases List.mem_cons.mp hr with rfl | hr
    · rw [consumeRefs_preserve_ne _ _ _
        (fun r3 hr3 he => (List.nodup_cons.mp hnd).1 (by rw [← he]; exact hr3))]
      rw [List.getD_eq_getElem?_getD, List.getElem?_set_self hlt]
      simp [drainSections_eq_nil]
    · exact ih _ (List.nodup_cons.mp hnd).2 r hr (by simpa using hlt)

/-- Claim C9: `setup_simulation` deep-copies each cable's `cable_sections`
list before the run, so the destructive pops of the simulation leave every
configuration-owned list unchanged: after copying and consuming, each config
cell still holds its original list, each fresh copy held the same content the
config cell did, and the copies themselves are drained to empty. -/
theorem config_sections_unchanged (store : Store) (refs : List ℕ)
    (h : ∀ r ∈ refs, r < store.length) :
    (∀ r ∈ refs,
      (consumeRefs (setup_copies store refs).1 (setup_copies store refs).2).getD r [] =
        store.getD r []) ∧
    (∀ i < refs.length,
      (setup_copies store refs).1.getD ((setup_copies store refs).2.getD i 0) [] =
        store.getD (refs.getD i 0) []) ∧
    (∀ r ∈ (setup_copies store refs).2,
      (consumeRefs (setup_copies store refs).1 (setup_copies store refs).2).getD r [] =
        []) := by
  obtain ⟨ext, hext⟩ := setup_copies_extend store refs
  refine ⟨?_, setup_copies_content store refs h, ?_⟩
  · intro r hr
    rw [consumeRefs_low _ _ store.length ?hlow r (h r hr), hext]
    · rw [List.getD_eq_getElem?_getD, List.getD_eq_getElem?_getD,
        List.getElem?_append_left (h r hr)]
    · intro r2 hr2
      rw [setup_copies_refs] at hr2
      exact (List.mem_range'_1.mp hr2).1
  · intro r hr
    refine consumeRefs_drained _ _ ?_ r hr ?_
    · rw [setup_copies_refs]
      exact List.nodup_range' _ _
    · rw [setup_copies_refs] at hr
      rw [setup_copies_length]
      have := List.mem_range'_1.mp hr
      omega

lemma pickMin_mem : ∀ (l : List (ℕ × ℚ)) x, pickMin l = some x → x ∈ l := by
  intro l
  induction l with
  | nil => intro x h; cases h
  | cons y rest ih =>
    intro x h
    obtain ⟨i, t⟩ := y
    simp only [pickMin] at h
    cases hp : pickMin rest with
    | none => rw [hp] at h; simp at h; simp [h]
    | some z =>
      obtain ⟨j, u⟩ := z
      rw [hp] at h
      simp only at h
      split at h
      · simp at h; simp [h]
      · simp at h
        exact List.mem_cons_of_mem _ (h ▸ ih (j, u) hp)

lemma pickMin_eq_none : ∀ (l : List (ℕ × ℚ)), pickMin l = none → l = [] := by
  intro l h
  cases l with
  | nil => rfl
  | cons y rest =>
    obtain ⟨i, t⟩ := y
    simp only [pickMin] at h
    cases hp : pickMin rest with
    | none => rw [hp] at h; cases h
    | some z =>
      obtain ⟨j, u⟩ := z
      rw [hp] at h
      simp only at h
      split at h <;> cases h

lemma nextCands_sound : ∀ (ps : List ProcState) i t, (i, t) ∈ nextCands ps →
    ∃ p d ds, ps[i]? = some p ∧ p.steps = d :: ds ∧ t = p.clock + d := by
  intro ps
  induction ps with
  | nil => intro i t h; cases h
  | cons p rest ih =>
    intro i t h
    simp only [nextCands] at h
    cases hs : p.steps with
    | nil =>
      rw [hs] at h
      simp only [List.mem_map] at h
      obtain ⟨⟨i2, t2⟩, hmem, heq⟩ := h
      obtain ⟨q, d, ds, hq, hqs, ht⟩ := ih i2 t2 hmem
      simp at heq
      refine ⟨q, d, ds, ?_, hqs, heq.2 ▸ ht⟩
      rw [← heq.1]
      simpa using hq
    | cons d rest2 =>
      rw [hs] at h
      simp only [List.mem_cons, List.mem_map] at h
      rcases h with heq | ⟨⟨i2, t2⟩, hmem, heq⟩
      · simp at heq
        exact ⟨p, d, rest2, by simp [heq.1], hs, heq.2⟩
      · obtain ⟨q, d2, ds2, hq, hqs, ht⟩ := ih i2 t2 hmem
        simp at heq
        refine ⟨q, d2, ds2, ?_, hqs, heq.2 ▸ ht⟩
        rw [← heq.1]
        simpa using hq

lemma nextCands_nil : ∀ (ps : List ProcState), nextCands ps = [] →
    ∀ p ∈ ps, p.steps = [] := by
  intro ps
  induction ps with
  | nil => simp
  | cons p rest ih =>
    intro h q hq
    simp only [nextCands] at h
    cases hs : p.steps with
    | nil =>
      rw [hs] at h
      simp at h
      rcases hq with _ | hq
      · exact hs
      · exact ih (by simpa using h) q (by assumption)
    | cons d rest2 => rw [hs] at h; cases h

lemma totalSteps_set : ∀ (ps : List ProcState) i p q, ps[i]? = some p →
    totalSteps (ps.set i q) + p.steps.length = totalSteps ps + q.steps.length := by
  intro ps
  induction ps with
  | nil => intro i p q h; cases h
  | cons r rest ih =>
    intro i p q h
    cases i with
    | zero =>
      simp at h
      subst h
      simp [totalSteps, List.set]
      omega
    | succ i =>
      simp at h
      have := ih i p q (by simpa using h)
      simp [totalSteps, List.set] at this ⊢
      omega

lemma totalSteps_zero : ∀ (ps : List ProcState), totalSteps ps = 0 →
    ∀ p ∈ ps, p.steps = [] := by
  intro ps h p hp
  simp [totalSteps, List.sum_eq_zero_iff] at h
  exact h p hp

lemma map_name_set : ∀ (ps : List ProcState) i (p q : ProcState),
    ps[i]? = some p → q.name = p.name →
    (ps.set i q).map (fun r => r.name) = ps.map (fun r => r.name) := by
  intro ps
  induction ps with
  | nil => intro i p q h; cases h
  | cons r rest ih =>
    intro i p q h hn
    cases i with
    | zero =>
      simp at h
      subst h
      simp [List.set, hn]
    | succ i =>
      simp at h
      simp [List.set, ih i p q (by simpa using h) hn]

lemma nodup_getElem?_ne {l : List String} (h : l.Nodup) {i j : ℕ} (hij : i ≠ j)
    {a b : String} (ha : l[i]? = some a) (hb : l[j]? = some b) : a ≠ b := by
  obtain ⟨hi, ha2⟩ := List.getElem?_eq_some_iff.mp ha
  obtain ⟨hj, hb2⟩ := List.getElem?_eq_some_iff.mp hb
  intro he
  exact hij ((h.getElem_inj_iff).mp (by rw [ha2, hb2, he]))

lemma schedRun_filter (fuel : ℕ) : ∀ (ps : List ProcState),
    totalSteps ps ≤ fuel → (ps.map (fun r => r.name)).Nodup →
    ∀ (j : ℕ) (p : ProcState), ps[j]? = some p →
    (schedRun fuel ps).filter (fun e => e.agent == p.name) =
      prefixEntries p.name p.clock p.steps := by
  induction fuel with
  | zero =>
    intro ps hts hnd j p hj
    have : p.steps = [] :=
      totalSteps_zero ps (Nat.le_zero.mp hts) p (List.getElem?_mem hj)
    simp [schedRun, this, prefixEntries]
  | succ fuel ih =>
    intro ps hts hnd j p hj
    simp only [schedRun]
    cases hpick : pickMin (nextCands ps) with
    | none =>
      have hnil := pickMin_eq_none _ hpick
      have : p.steps = [] :=
        nextCands_nil ps hnil p (List.getElem?_mem hj)
      simp [this, prefixEntries]
    | some x =>
      obtain ⟨i, t⟩ := x
      obtain ⟨p2, d, ds, hp2, hsteps, ht⟩ :=
        nextCands_sound ps i t (pickMin_mem _ _ hpick)
      simp only [hp2, hsteps]
      have hts2 : totalSteps (ps.set i ⟨p2.name, p2.clock + d, ds⟩) ≤ fuel := by
        have := totalSteps_set ps i p2 ⟨p2.name, p2.clock + d, ds⟩ hp2
        rw [hsteps] at this
        simp at this
        omega
      have hnd2 : ((ps.set i ⟨p2.name, p2.clock + d, ds⟩).map
          (fun r => r.name)).Nodup := by
        rw [map_name_set ps i p2 ⟨p2.name, p2.clock + d, ds⟩ hp2 rfl]
        exact hnd
      by_cases hji : j = i
      · subst hji
        have hpp2 : p = p2 := by rw [hj] at hp2; exact Option.some.inj hp2
        subst hpp2
        have hlt : j < ps.length := (List.getElem?_eq_some_iff.mp hj).1
        have hj2 : (ps.set j ⟨p.name, p.clock + d, ds⟩)[j]? =
            some ⟨p.name, p.clock + d, ds⟩ := List.getElem?_set_self (by simpa)
        have := ih _ hts2 hnd2 j _ hj2
        simp only [List.filter_cons]
        simp only [beq_self_eq_true, if_true]
        rw [this, hsteps, prefixEntries]
      · have hne : p2.name ≠ p.name := by
          have h1 : (ps.map (fun r => r.name))[i]? = some p2.name := by
            simpa using congrArg (Option.map (fun r : ProcState => r.name)) hp2
          have h2 : (ps.map (fun r => r.name))[j]? = some p.name := by
            simpa using congrArg (Option.map (fun r : ProcState => r.name)) hj
          exact nodup_getElem?_ne hnd (fun h => hji h.symm) h1 h2
        have hj2 : (ps.set i ⟨p2.name, p2.clock + d, ds⟩)[j]? = some p := by
          rw [List.getElem?_set_ne (fun h => hji h.symm)]
          exact hj
        have hrec := ih _ hts2 hnd2 j _ hj2
        simp only [List.filter_cons]
        have hfilter : ((⟨p2.name, p2.clock + d, d⟩ : LogEntry).agent == p.name) = false := by
          simp [hne]
        rw [hfilter]
        simpa using hrec

lemma prefixEntries_contiguous (name : String) : ∀ (ds : List ℚ) (t : ℚ),
    contiguousFrom t (prefixEntries name t ds) := by
  intro ds
  induction ds with
  | nil => intro t; trivial
  | cons d rest ih => exact fun t => ⟨rfl, ih (t + d)⟩

lemma prefixEntries_time_mono (name : String) : ∀ (ds : List ℚ) (t : ℚ),
    (∀ d ∈ ds, 0 ≤ d) →
    List.Chain' (fun x y : LogEntry => x.time ≤ y.time)
      (prefixEntries name t ds) := by
  intro ds
  induction ds with
  | nil => intro t h; simp [prefixEntries]
  | cons d rest ih =>
    intro t h
    simp only [prefixEntries]
    cases rest with
    | nil => simp [prefixEntries]
    | cons d2 rest2 =>
      refine List.Chain'.cons ?_ (ih (t + d) (fun x hx => h x (List.mem_cons_of_mem d hx)))
      simp only [prefixEntries]
      have : 0 ≤ d2 := h d2 (by simp)
      simp
      linarith

/-- Claim C6: for every agent of a completed run of the event-driven
scheduler, the sequence of logged action end-times is contiguous
(each end-time equals the previous end-time plus the action's own duration,
starting from time zero) and, for nonnegative durations, non-decreasing. -/
theorem agent_log_contiguous (agents : List (String × List ℚ))
    (hnd : (agents.map Prod.fst).Nodup) (a : String × List ℚ) (ha : a ∈ agents) :
    (runScheduler agents).filter (fun e => e.agent == a.1) =
      prefixEntries a.1 0 a.2 ∧
    contiguousFrom 0 ((runScheduler agents).filter (fun e => e.agent == a.1)) ∧
    ((∀ d ∈ a.2, 0 ≤ d) →
      List.Chain' (fun x y : LogEntry => x.time ≤ y.time)
        ((runScheduler agents).filter (fun e => e.agent == a.1))) := by
  have hnd2 : ((initProcs agents).map (fun r => r.name)).Nodup := by
    simpa [initProcs, List.map_map, Function.comp] using hnd
  obtain ⟨j, hj⟩ := List.mem_iff_getElem?.mp ha
  have hj2 : (initProcs agents)[j]? = some ⟨a.1, 0, a.2⟩ := by
    simp [initProcs, hj]
  have hmain := schedRun_filter (totalSteps (initProcs agents)) (initProcs agents)
    le_rfl hnd2 j ⟨a.1, 0, a.2⟩ hj2
  refine ⟨hmain, ?_, ?_⟩
  · rw [runScheduler, hmain]
    exact prefixEntries_contiguous a.1 a.2 0
  · intro hpos
    rw [runScheduler, hmain]
    exact prefixEntries_time_mono a.1 a.2 0 hpos

lemma takeWhile_append_sep (p : Char → Bool) :
    ∀ (l r : List Char), (∀ c ∈ l, p c = true) →
    (l ++ r).takeWhile p = l ++ r.takeWhile p := by
  intro l r hl
  induction l with
  | nil => simp
  | cons c rest ih =>
    simp only [List.cons_append, List.takeWhile_cons, hl c (by simp)]
    simp [ih (fun c2 hc2 => hl c2 (List.mem_cons_of_mem c hc2))]

/-- Claim C7: phase-name resolution is deterministic suffix-stripping
against the registry: an exact registered name resolves to itself; a
registered name followed by a separator and a distinguishing suffix resolves
to that name; a name whose exact form and whose leading token both miss the
registry (for example one with extra words prepended) fails resolution. -/
theorem find_key_match_resolution (registry : List String) :
    (∀ target ∈ registry, find_key_match registry target = some target) ∧
    (∀ (base : String) (c : Char) (rest : List Char),
      base ∈ registry →
      (∀ c2 ∈ base.toList, isSep c2 = false) →
      isSep c = true →
      String.mk (base.toList ++ c :: rest) ∉ registry →
      find_key_match registry (String.mk (base.toList ++ c :: rest)) = some base) ∧
    (∀ target, target ∉ registry →
      String.mk (target.toList.takeWhile (fun c => !isSep c)) ∉ registry →
      find_key_match registry target = none) := by
  refine ⟨?_, ?_, ?_⟩
  · intro target ht
    simp [find_key_match, ht]
  · intro base c rest hb hbase hc hnot
    rw [find_key_match, if_neg hnot]
    have htl : (String.mk (base.toList ++ c :: rest)).toList = base.toList ++ c :: rest := rfl
    rw [htl, takeWhile_append_sep _ _ _ (fun c2 hc2 => by simp [hbase c2 hc2])]
    simp only [List.takeWhile_cons, hc]
    simp only [Bool.not_true, Bool.false_eq_true, if_false, List.append_nil]
    have : String.mk base.toList = base := rfl
    rw [this, if_pos hb]
  · intro target ht hbase
    simp only [find_key_match, if_neg ht]
    exact if_neg hbase

/-- Witness for the resolution theorem at the registry and names of the
repository's tests. -/
theorem find_key_match_resolution_witness :
    ("TurbineInstallation" ∈ ["TurbineInstallation", "SpecificTurbineInstallation"]) ∧
    find_key_match ["TurbineInstallation", "SpecificTurbineInstallation"]
      "TurbineInstallation" = some ("TurbineInstallation") ∧
    find_key_match ["TurbineInstallation", "SpecificTurbineInstallation"]
      (String.mk ("TurbineInstallation".toList ++ (' ') :: "Test_1".toList)) =
      some ("TurbineInstallation") ∧
    find_key_match ["TurbineInstallation", "SpecificTurbineInstallation"]
      "Other TurbineInstallation" = none :=
  ⟨by decide,
   (find_key_match_resolution
      ["TurbineInstallation", "SpecificTurbineInstallation"]).1
      ("TurbineInstallation") (by decide),
   (find_key_match_resolution
      ["TurbineInstallation", "SpecificTurbineInstallation"]).2.1
      ("TurbineInstallation") (' ') ("Test_1".toList)
      (by decide) (by decide) (by decide) (by decide),
   (find_key_match_resolution
      ["TurbineInstallation", "SpecificTurbineInstallation"]).2.2
      ("Other TurbineInstallation") (by decide) (by decide)⟩

/-- Claim C8: with a date-keyed `install_phases` mapping, for any two phases
pinned to absolute start dates, the difference between the phases' starts on
the project timeline (each phase's first logged action time minus that
action's duration) equals the calendar-day difference of the start dates
times 24 hours, exactly; the hypothesis covers runs with or without a
weather profile, since weather delays are themselves logged actions that
keep the local log contiguous from zero. -/
theorem date_pinned_phase_start_offsets (d1 d2 : ℤ) (l1 l2 : List LogEntry) (e1 e2 : LogEntry)
    (h1 : contiguousFrom 0 l1) (h2 : contiguousFrom 0 l2)
    (he1 : (projectActions d1 l1).head? = some e1)
    (he2 : (projectActions d2 l2).head? = some e2) :
    (e2.time - e2.duration) - (e1.time - e1.duration) =
      ((d2 - d1 : ℤ) : ℚ) * 24 := by
  cases l1 with
  | nil => cases he1
  | cons x1 rest1 =>
    cases l2 with
    | nil => cases he2
    | cons x2 rest2 =>
      simp only [projectActions, List.map_cons, List.head?_cons,
        Option.some.injEq] at he1 he2
      obtain ⟨hx1, -⟩ := h1
      obtain ⟨hx2, -⟩ := h2
      subst he1
      subst he2
      simp only [hx1, hx2]
      push_cast
      ring

lemma laySpecsList_bury (l : List ℚ) (st : SimState) :
    laySpecsList (bury_array_cables l st).1 = [] := by
  simp only [laySpecsList, List.filterMap_eq_nil_iff]
  intro e he
  rcases bury_array_cables_entries l st e he with ⟨-, -, -, -, h | ⟨len, h⟩⟩ <;>
    simp [h]

lemma dictLookup_dictInsert_self (kw : Kwargs) (k : String) (v : ℚ) :
    dictLookup (dictInsert kw k v) k = some v := by
  induction kw with
  | nil => simp [dictInsert, dictLookup]
  | cons p rest ih =>
    by_cases h : p.1 = k
    · simp [dictInsert, dictLookup, h]
    · simp [dictInsert, dictLookup, h, ih]

lemma dictLookup_dictInsert_ne (kw : Kwargs) (k k2 : String) (v : ℚ) (h : k2 ≠ k) :
    dictLookup (dictInsert kw k v) k2 = dictLookup kw k2 := by
  induction kw with
  | nil => simp [dictInsert, dictLookup, Ne.symm h]
  | cons p rest ih =>
    by_cases hp : p.1 = k
    · have hp2 : p.1 ≠ k2 := by rw [hp]; exact Ne.symm h
      simp [dictInsert, dictLookup, hp, hp2, Ne.symm h]
    · simp [dictInsert, dictLookup, hp, ih]

/-- Claim C10: when a section tuple carries a speed, `install_array_cables`
forwards it to the laying step as `cable_lay_bury_speed` when no burial
vessel is configured and as `cable_lay_speed` when one is, leaving every
other keyword argument unchanged; a tuple without a speed uses the incoming
kwargs unmodified. -/
theorem section_speed_forwarding (hasBurial : Bool) (kwargs : Kwargs) (L s : ℚ)
    (st : SimState) (hL : L ≤ st.storage.capacity) :
    (laySpecsList (install_array_cables hasBurial false kwargs [[(L, 1, some s)]] st).1 =
      [dictInsert kwargs
        (if hasBurial then ("cable_lay_speed") else ("cable_lay_bury_speed")) s]) ∧
    (laySpecsList (install_array_cables hasBurial false kwargs [[(L, 1, none)]] st).1 =
      [kwargs]) ∧
    (∀ k2, k2 ≠ (if hasBurial then ("cable_lay_speed") else ("cable_lay_bury_speed")) →
      dictLookup (dictInsert kwargs
        (if hasBurial then ("cable_lay_speed") else ("cable_lay_bury_speed")) s) k2 =
      dictLookup kwargs k2) ∧
    (dictLookup (dictInsert kwargs
        (if hasBurial then ("cable_lay_speed") else ("cable_lay_bury_speed")) s)
      (if hasBurial then ("cable_lay_speed") else ("cable_lay_bury_speed")) = some s) := by
  refine ⟨?_, ?_, fun k2 hk => dictLookup_dictInsert_ne _ _ _ _ hk,
    dictLookup_dictInsert_self _ _ _⟩ <;>
  · cases hasBurial
    · simp [install_array_cables, layCables, installOneCable, processSections,
        layUnits, layUnitSteps, getSectionRetry, CableStorage.get_cable,
        CableStorage.reset, loadStorage, sectionSpecs, not_lt.mpr hL,
        SimState.emit, laySpecsList]
    · simp only [install_array_cables, layCables, installOneCable, processSections,
        layUnits, layUnitSteps, getSectionRetry, CableStorage.get_cable,
        CableStorage.reset, loadStorage, sectionSpecs, not_lt.mpr hL,
        SimState.emit, if_true, if_false, ite_true, ite_false, if_neg, not_false_iff]
      simp only [laySpecsList, List.filterMap_append]
      simp [not_lt.mpr hL]
      intro a ha
      rcases bury_array_cables_entries _ _ a ha with ⟨-, -, -, -, h | ⟨len, h⟩⟩ <;>
        simp [h]

/-- Claim C1: when `get_cable` for the next section raises
`InsufficientCable`, the vessel transits to port, reloads once, transits
back, and retries `get_cable` exactly once: if the reloaded capacity covers
the section the retry succeeds after exactly the transit-load-transit
recovery trace; if even full capacity is short, the single retry fails and
the error propagates uncaught, ending the run with exactly two load steps in
the whole trace (the initial load plus the one reload -- no second reload). -/
theorem insufficient_cable_retries_once (kwargs : Kwargs) (L : ℚ) (st : SimState)
    (h : st.storage.level < L) :
    (L ≤ st.storage.capacity →
      getSectionRetry L st =
        ([st.emit .install .transit, st.emit .install .loadCable,
          st.emit .install .transit],
         .ok (L, { st with storage := ⟨st.storage.capacity, st.storage.capacity - L⟩ }))) ∧
    (st.storage.capacity < L →
      getSectionRetry L st =
        ([st.emit .install .transit, st.emit .install .loadCable,
          st.emit .install .transit],
         .error ())) ∧
    (st.storage.capacity < L →
      (install_array_cables false false kwargs [[(L, 1, none)]] st).2 = .error ()) ∧
    (st.storage.capacity < L →
      loadCount (install_array_cables false false kwargs [[(L, 1, none)]] st).1 = 2) := by
  refine ⟨?_, ?_, ?_, ?_⟩
  · intro hc
    simp [getSectionRetry, CableStorage.get_cable, loadStorage, if_pos h, not_lt.mpr hc]
  · intro hc
    simp [getSectionRetry, CableStorage.get_cable, loadStorage, if_pos h, if_pos hc]
  · intro hc
    simp [install_array_cables, layCables, installOneCable, processSections, layUnits,
      getSectionRetry, CableStorage.get_cable, CableStorage.reset, loadStorage,
      sectionSpecs, if_pos hc]
  · intro hc
    simp [install_array_cables, layCables, installOneCable, processSections, layUnits,
      getSectionRetry, CableStorage.get_cable, CableStorage.reset, loadStorage,
      sectionSpecs, if_pos hc, loadCount, SimState.emit]

/-- Witness for the single-retry theorem: storage holding 1 km of a 2 km
capacity, asked for a 3 km section. -/
theorem insufficient_cable_retries_once_witness :
    ((⟨⟨2, 1⟩, ⟨true, false⟩, ⟨true, false⟩, ⟨true, false⟩, []⟩ : SimState).storage.level < 3) ∧
    (((3 : ℚ) ≤ 2 →
      getSectionRetry 3 ⟨⟨2, 1⟩, ⟨true, false⟩, ⟨true, false⟩, ⟨true, false⟩, []⟩ =
        ([SimState.emit ⟨⟨2, 1⟩, ⟨true, false⟩, ⟨true, false⟩, ⟨true, false⟩, []⟩ .install .transit,
          SimState.emit ⟨⟨2, 1⟩, ⟨true, false⟩, ⟨true, false⟩, ⟨true, false⟩, []⟩ .install .loadCable,
          SimState.emit ⟨⟨2, 1⟩, ⟨true, false⟩, ⟨true, false⟩, ⟨true, false⟩, []⟩ .install .transit],
         .ok (3, ⟨⟨2, 2 - 3⟩, ⟨true, false⟩, ⟨true, false⟩, ⟨true, false⟩, []⟩))) ∧
    ((2 : ℚ) < 3 →
      getSectionRetry 3 ⟨⟨2, 1⟩, ⟨true, false⟩, ⟨true, false⟩, ⟨true, false⟩, []⟩ =
        ([SimState.emit ⟨⟨2, 1⟩, ⟨true, false⟩, ⟨true, false⟩, ⟨true, false⟩, []⟩ .install .transit,
          SimState.emit ⟨⟨2, 1⟩, ⟨true, false⟩, ⟨true, false⟩, ⟨true, false⟩, []⟩ .install .loadCable,
          SimState.emit ⟨⟨2, 1⟩, ⟨true, false⟩, ⟨true, false⟩, ⟨true, false⟩, []⟩ .install .transit],
         .error ())) ∧
    ((2 : ℚ) < 3 →
      (install_array_cables false false [] [[(3, 1, none)]]
        ⟨⟨2, 1⟩, ⟨true, false⟩, ⟨true, false⟩, ⟨true, false⟩, []⟩).2 = .error ()) ∧
    ((2 : ℚ) < 3 →
      loadCount (install_array_cables false false [] [[(3, 1, none)]]
        ⟨⟨2, 1⟩, ⟨true, false⟩, ⟨true, false⟩, ⟨true, false⟩, []⟩).1 = 2)) :=
  ⟨by decide,
   insufficient_cable_retries_once [] 3
     ⟨⟨2, 1⟩, ⟨true, false⟩, ⟨true, false⟩, ⟨true, false⟩, []⟩ (by decide)⟩

/-- Claim C2: with no burial and no trench vessel and a single section of
count one, the steps of the run are, in order: load, transit out, then the
per-section sequence position onsite, prep, pull-in, terminate, lower,
lay-and-bury, prep, pull-in, terminate (one lay action with matching
prep/pull-in/terminate before and after), then the transits back, after
which the vessel has `at_port` true. -/
theorem single_section_step_sequence (kwargs : Kwargs) (L : ℚ) (st : SimState)
    (hL : L ≤ st.storage.capacity) :
    ((install_array_cables false false kwargs [[(L, 1, none)]] st).1.map Entry.act =
      [.loadCable, .transit, .positionOnsite, .prepCable, .pullInCable,
       .terminateCable, .lowerCable, .layBuryCable L kwargs, .prepCable,
       .pullInCable, .terminateCable, .transit, .transit]) ∧
    (∃ st2, (install_array_cables false false kwargs [[(L, 1, none)]] st).2 = .ok st2 ∧
      st2.install.at_port = true ∧ st2.install.at_site = false) := by
  simp [install_array_cables, layCables, installOneCable, processSections, layUnits,
    layUnitSteps, getSectionRetry, CableStorage.get_cable, CableStorage.reset,
    loadStorage, sectionSpecs, not_lt.mpr hL, SimState.emit]

/-- Witness for the single-section sequence theorem at a 1 km section and a
10 km capacity vessel. -/
theorem single_section_step_sequence_witness :
    ((1 : ℚ) ≤ (initState 10).storage.capacity) ∧
    (((install_array_cables false false [] [[(1, 1, none)]] (initState 10)).1.map Entry.act =
      [.loadCable, .transit, .positionOnsite, .prepCable, .pullInCable,
       .terminateCable, .lowerCable, .layBuryCable 1 [], .prepCable,
       .pullInCable, .terminateCable, .transit, .transit]) ∧
    (∃ st2, (install_array_cables false false [] [[(1, 1, none)]] (initState 10)).2 = .ok st2 ∧
      st2.install.at_port = true ∧ st2.install.at_site = false)) :=
  ⟨by decide, single_section_step_sequence [] 1 (initState 10) (by decide)⟩

/-- Claim C4, evaluated at the failing input: with a trench vessel
configured, the trenching pass drains the shared section lists before the
lay loop reads them, so the lay vessel performs zero lay actions, where the
identical run without the trench vessel performs exactly one; configuring
the trench vessel does not leave the lay vessel's work unchanged. -/
theorem trench_run_lays_nothing :
    layActionCount (install_array_cables false true [] [[(1, 1, none)]] (initState 10)).1 = 0 ∧
    layActionCount (install_array_cables false false [] [[(1, 1, none)]] (initState 10)).1 = 1 := by
  decide

lemma flagsChain_of_seg (v : AgentId) (es : List Entry) :
    ∀ (f : VFlags) (pt : Bool) (g : VFlags),
    flagsSeg v f pt es g → flagsChain v f pt es := by
  induction es with
  | nil => intro f pt g h; trivial
  | cons e rest ih =>
    intro f pt g h
    exact ⟨h.1, ih (e.vflags v) (e.isTransit v) g h.2⟩

lemma flagsSeg_append (v : AgentId) (es1 : List Entry) :
    ∀ (f : VFlags) (pt : Bool) (g h2 : VFlags) (es2 : List Entry),
    flagsSeg v f pt es1 g → (∀ pt2, flagsSeg v g pt2 es2 h2) →
    flagsSeg v f pt (es1 ++ es2) h2 := by
  induction es1 with
  | nil =>
    intro f pt g h2 es2 h1 hnext
    cases es2 with
    | nil =>
      intro hfh
      by_cases hfg : f = g
      · exact hnext pt (by rw [← hfg]; exact hfh)
      · exact h1 hfg
    | cons e rest =>
      refine ⟨?_, (hnext pt).2⟩
      intro hfe
      by_cases hfg : f = g
      · exact (hnext pt).1 (by rw [← hfg]; exact hfe)
      · exact Or.inl (h1 hfg)
  | cons e rest ih =>
    intro f pt g h2 es2 h1 hnext
    exact ⟨h1.1, ih (e.vflags v) (e.isTransit v) g h2 es2 h1.2 hnext⟩

lemma flagsChain_append (v : AgentId) (es1 : List Entry) :
    ∀ (f : VFlags) (pt : Bool) (g : VFlags) (es2 : List Entry),
    flagsSeg v f pt es1 g → (∀ pt2, flagsChain v g pt2 es2) →
    flagsChain v f pt (es1 ++ es2) := by
  induction es1 with
  | nil =>
    intro f pt g es2 h1 hnext
    cases es2 with
    | nil => trivial
    | cons e rest =>
      refine ⟨?_, (hnext pt).2⟩
      intro hfe
      by_cases hfg : f = g
      · exact (hnext pt).1 (by rw [← hfg]; exact hfe)
      · exact Or.inl (h1 hfg)
  | cons e rest ih =>
    intro f pt g es2 h1 hnext
    exact ⟨h1.1, ih (e.vflags v) (e.isTransit v) g es2 h1.2 hnext⟩

lemma flagsSeg_const (v : AgentId) (es : List Entry) (f : VFlags)
    (h : ∀ e ∈ es, e.vflags v = f) : ∀ pt, flagsSeg v f pt es f := by
  induction es with
  | nil => exact fun pt hff => absurd rfl hff
  | cons e rest ih =>
    intro pt
    have he := h e (by simp)
    refine ⟨fun hne => absurd he.symm hne, ?_⟩
    rw [he]
    exact ih (fun e2 he2 => h e2 (List.mem_cons_of_mem e he2)) (e.isTransit v)



lemma getSectionRetry_flags_const (len : ℚ) (st : SimState) :
    (∀ e ∈ (getSectionRetry len st).1, ∀ v, e.vflags v = stFlagsOf st v) ∧
    (∀ sec st1, (getSectionRetry len st).2 = .ok (sec, st1) →
      ∀ v, stFlagsOf st1 v = stFlagsOf st v) := by
  unfold getSectionRetry
  cases hg : st.storage.get_cable len with
  | ok p =>
    refine ⟨by simp, ?_⟩
    intro sec st1 hok
    simp at hok
    obtain ⟨-, rfl⟩ := hok
    intro v
    cases v <;> rfl
  | error e =>
    cases hg2 : (loadStorage st.storage).get_cable len with
    | ok p =>
      simp only [hg2]
      refine ⟨?_, ?_⟩
      · intro e2 he v
        simp [SimState.emit] at he
        rcases he with rfl | rfl | rfl <;> cases v <;> rfl
      · intro sec st1 hok
        simp at hok
        obtain ⟨-, rfl⟩ := hok
        intro v
        cases v <;> rfl
    | error e2 =>
      simp only [hg2]
      refine ⟨?_, by simp⟩
      intro e3 he v
      simp [SimState.emit] at he
      rcases he with rfl | rfl | rfl <;> cases v <;> rfl

lemma layUnitSteps_flags_const (hasBurial : Bool) (specs : Kwargs) (sec : ℚ)
    (st : SimState) :
    (∀ e ∈ (layUnitSteps hasBurial specs sec st).1, ∀ v, e.vflags v = stFlagsOf st v) ∧
    (∀ v, stFlagsOf (layUnitSteps hasBurial specs sec st).2 v = stFlagsOf st v) := by
  unfold layUnitSteps
  cases hasBurial <;>
  · refine ⟨?_, fun v => by cases v <;> rfl⟩
    intro e he v
    simp [SimState.emit] at he
    rcases he with rfl | rfl | rfl | rfl | rfl | rfl | rfl | rfl | rfl <;> cases v <;> rfl

lemma layUnits_flags_const (hasBurial : Bool) (specs : Kwargs) (len : ℚ) (n : ℕ)
    (st : SimState) :
    (∀ e ∈ (layUnits hasBurial specs len n st).1, ∀ v, e.vflags v = stFlagsOf st v) ∧
    (∀ st1, (layUnits hasBurial specs len n st).2 = .ok st1 →
      ∀ v, stFlagsOf st1 v = stFlagsOf st v) := by
  induction n generalizing st with
  | zero =>
    refine ⟨by simp [layUnits], ?_⟩
    intro st1 hok
    simp [layUnits] at hok
    rw [hok]
    exact fun v => rfl
  | succ n ih =>
    simp only [layUnits]
    cases hg : (getSectionRetry len st).2 with
    | error e =>
      refine ⟨fun e2 he => (getSectionRetry_flags_const len st).1 e2 he, by simp⟩
    | ok p =>
      cases p with
      | mk sec st1 =>
        have hst1 := (getSectionRetry_flags_const len st).2 sec st1 hg
        have hq := layUnitSteps_flags_const hasBurial specs sec st1
        have hrec := ih (layUnitSteps hasBurial specs sec st1).2
        refine ⟨?_, ?_⟩
        · intro e2 he
          simp only [List.append_assoc, List.mem_append] at he
          rcases he with he | he | he
          · exact (getSectionRetry_flags_const len st).1 e2 he
          · intro v
            rw [(hq.1 e2 he) v, hst1 v]
          · intro v
            rw [(hrec.1 e2 he) v, hq.2 v, hst1 v]
        · intro st2 hok v
          rw [hrec.2 st2 hok v, hq.2 v, hst1 v]

lemma layUnits_flagsSeg (hasBurial : Bool) (specs : Kwargs) (len : ℚ) (n : ℕ)
    (st : SimState) (v : AgentId) :
    (∀ pt, flagsChain v (stFlagsOf st v) pt (layUnits hasBurial specs len n st).1) ∧
    (∀ pt st1, (layUnits hasBurial specs len n st).2 = .ok st1 →
      flagsSeg v (stFlagsOf st v) pt (layUnits hasBurial specs len n st).1
        (stFlagsOf st1 v)) := by
  have hc := layUnits_flags_const hasBurial specs len n st
  have hseg := flagsSeg_const v (layUnits hasBurial specs len n st).1 (stFlagsOf st v)
    (fun e he => (hc.1 e he) v)
  refine ⟨fun pt => flagsChain_of_seg v _ _ _ _ (hseg pt), ?_⟩
  intro pt st1 hok
  rw [hc.2 st1 hok v]
  exact hseg pt



lemma processSections_flagsSeg (hasBurial : Bool) (kwargs : Kwargs)
    (secs : List CableSection) (st : SimState) (v : AgentId) :
    (∀ pt, flagsChain v (stFlagsOf st v) pt
      (processSections hasBurial kwargs secs st).1) ∧
    (∀ pt st1, (processSections hasBurial kwargs secs st).2 = .ok st1 →
      flagsSeg v (stFlagsOf st v) pt (processSections hasBurial kwargs secs st).1
        (stFlagsOf st1 v)) := by
  induction secs generalizing st with
  | nil =>
    simp only [processSections]
    refine ⟨?_, ?_⟩
    · intro pt
      cases v with
      | install => exact ⟨fun _ => Or.inr rfl, trivial⟩
      | burial => exact ⟨fun hne => absurd rfl hne, trivial⟩
      | trench => exact ⟨fun hne => absurd rfl hne, trivial⟩
    · intro pt st1 hok
      simp at hok
      subst hok
      cases v with
      | install => exact ⟨fun _ => Or.inr rfl, fun _ => rfl⟩
      | burial => exact ⟨fun hne => absurd rfl hne, fun hne => absurd rfl hne⟩
      | trench => exact ⟨fun hne => absurd rfl hne, fun hne => absurd rfl hne⟩
  | cons sec rest ih =>
    obtain ⟨len, num, extra⟩ := sec
    simp only [processSections]
    cases hu : (layUnits hasBurial (sectionSpecs hasBurial kwargs extra) len num st).2 with
    | error e =>
      refine ⟨fun pt => (layUnits_flagsSeg _ _ _ _ st v).1 pt, by simp⟩
    | ok st1 =>
      have hseg := (layUnits_flagsSeg hasBurial (sectionSpecs hasBurial kwargs extra)
        len num st v).2
      refine ⟨?_, ?_⟩
      · intro pt
        exact flagsChain_append v _ _ _ _ _ (hseg pt st1 hu)
          (fun pt2 => ((ih st1).1 pt2))
      · intro pt st2 hok
        exact flagsSeg_append v _ _ _ _ _ _ (hseg pt st1 hu)
          (fun pt2 => (ih st1).2 pt2 st2 hok)



lemma installOneCable_flagsSeg (hasBurial : Bool) (kwargs : Kwargs)
    (secs : List CableSection) (st : SimState) (v : AgentId) :
    (∀ pt, flagsChain v (stFlagsOf st v) pt
      (installOneCable hasBurial kwargs secs st).1) ∧
    (∀ pt st1, (installOneCable hasBurial kwargs secs st).2 = .ok st1 →
      flagsSeg v (stFlagsOf st v) pt (installOneCable hasBurial kwargs secs st).1
        (stFlagsOf st1 v)) := by
  have hP := processSections_flagsSeg hasBurial kwargs secs
    (⟨⟨st.storage.capacity, st.storage.capacity⟩, ⟨false, true⟩,
      st.burial, st.trench, st.to_bury⟩ : SimState) v
  have seg12 : ∀ pt, flagsSeg v (stFlagsOf st v) pt
      [(⟨.install, .loadCable, st.install, st.burial, st.trench⟩ : Entry),
       (⟨.install, .transit, ⟨false, st.install.at_site⟩, st.burial, st.trench⟩ : Entry)]
      (stFlagsOf (⟨⟨st.storage.capacity, st.storage.capacity⟩, ⟨false, true⟩,
        st.burial, st.trench, st.to_bury⟩ : SimState) v) := by
    intro pt
    cases v with
    | install =>
      exact ⟨fun hne => absurd rfl hne, fun _ => Or.inr rfl, fun _ => rfl⟩
    | burial =>
      exact ⟨fun hne => absurd rfl hne, fun hne => absurd rfl hne,
        fun hne => absurd rfl hne⟩
    | trench =>
      exact ⟨fun hne => absurd rfl hne, fun hne => absurd rfl hne,
        fun hne => absurd rfl hne⟩
  simp only [installOneCable, loadStorage, CableStorage.reset]
  cases hp : (processSections hasBurial kwargs secs
      (⟨⟨st.storage.capacity, st.storage.capacity⟩, ⟨false, true⟩,
        st.burial, st.trench, st.to_bury⟩ : SimState)).2 with
  | error e =>
    refine ⟨?_, by simp⟩
    intro pt
    exact flagsChain_append v _ _ pt _ _ (seg12 pt) (fun pt2 => hP.1 pt2)
  | ok st3 =>
    have seg3 : ∀ pt3, flagsSeg v (stFlagsOf st3 v) pt3
        [(⟨.install, .transit, ⟨st3.install.at_port, false⟩, st3.burial,
          st3.trench⟩ : Entry)]
        (stFlagsOf (⟨st3.storage, ⟨true, false⟩, st3.burial, st3.trench,
          st3.to_bury⟩ : SimState) v) := by
      intro pt3
      cases v with
      | install => exact ⟨fun _ => Or.inr rfl, fun _ => rfl⟩
      | burial => exact ⟨fun hne => absurd rfl hne, fun hne => absurd rfl hne⟩
      | trench => exact ⟨fun hne => absurd rfl hne, fun hne => absurd rfl hne⟩
    refine ⟨?_, ?_⟩
    · intro pt
      refine flagsChain_append v _ _ pt _ _ (seg12 pt) ?_
      intro pt2
      refine flagsChain_append v _ _ pt2 _ _ (hP.2 pt2 st3 hp) ?_
      intro pt3
      exact flagsChain_of_seg v _ _ _ _ (seg3 pt3)
    · intro pt st1 hok
      simp at hok
      subst hok
      have step1 := flagsSeg_append v _ (stFlagsOf st v) pt _ _ _
        (seg12 pt) (fun pt2 => hP.2 pt2 st3 hp)
      exact flagsSeg_append v _ (stFlagsOf st v) pt _ _ _ step1 seg3



lemma layCables_flagsSeg (hasBurial : Bool) (kwargs : Kwargs)
    (cable_data : List (List CableSection)) (st : SimState) (v : AgentId) :
    (∀ pt, flagsChain v (stFlagsOf st v) pt
      (layCables hasBurial kwargs cable_data st).1) ∧
    (∀ pt st1, (layCables hasBurial kwargs cable_data st).2 = .ok st1 →
      flagsSeg v (stFlagsOf st v) pt (layCables hasBurial kwargs cable_data st).1
        (stFlagsOf st1 v)) := by
  induction cable_data generalizing st with
  | nil =>
    refine ⟨fun pt => trivial, ?_⟩
    intro pt st1 hok
    simp [layCables] at hok
    subst hok
    exact fun hne => absurd rfl hne
  | cons secs rest ih =>
    simp only [layCables]
    cases hc : (installOneCable hasBurial kwargs secs st).2 with
    | error e =>
      refine ⟨fun pt => (installOneCable_flagsSeg _ _ _ st v).1 pt, by simp⟩
    | ok st1 =>
      have hseg := (installOneCable_flagsSeg hasBurial kwargs secs st v).2
      refine ⟨?_, ?_⟩
      · intro pt
        exact flagsChain_append v _ _ pt _ _ (hseg pt st1 hc)
          (fun pt2 => (ih st1).1 pt2)
      · intro pt st2 hok
        exact flagsSeg_append v _ _ pt _ _ _ (hseg pt st1 hc)
          (fun pt2 => (ih st1).2 pt2 st2 hok)

lemma trenchSections_flagsSeg (secs : List CableSection) (st : SimState)
    (v : AgentId) :
    ∀ pt, flagsSeg v (stFlagsOf st v) pt (trenchSections secs st).1
      (stFlagsOf (trenchSections secs st).2.2 v) := by
  induction secs generalizing st with
  | nil =>
    intro pt
    simp only [trenchSections]
    cases v with
    | install =>
      exact ⟨fun hne => absurd rfl hne, fun hne => absurd rfl hne,
        fun hne => absurd rfl hne⟩
    | burial =>
      exact ⟨fun hne => absurd rfl hne, fun hne => absurd rfl hne,
        fun hne => absurd rfl hne⟩
    | trench =>
      exact ⟨fun _ => Or.inr rfl, fun _ => Or.inr rfl, fun hne => absurd rfl hne⟩
  | cons sec rest ih =>
    obtain ⟨len, num, extra⟩ := sec
    intro pt
    simp only [trenchSections]
    have hconst := flagsSeg_const v
      (List.replicate num (st.emit .trench (.digTrench len))) (stFlagsOf st v)
      (fun e he => by
        rw [(List.mem_replicate.mp he).2]
        cases v <;> rfl)
    exact flagsSeg_append v _ _ pt _ _ _ (hconst pt) (fun pt2 => ih st pt2)

lemma trenchCables_flagsSeg (cable_data : List (List CableSection))
    (st : SimState) (v : AgentId) :
    ∀ pt, flagsSeg v (stFlagsOf st v) pt (trenchCables cable_data st).1
      (stFlagsOf (trenchCables cable_data st).2.2 v) := by
  induction cable_data generalizing st with
  | nil => exact fun pt hne => absurd rfl hne
  | cons secs rest ih =>
    intro pt
    simp only [trenchCables, CableStorage.reset]
    have hT := trenchSections_flagsSeg secs
      (⟨⟨st.storage.capacity, st.storage.capacity⟩, st.install,
        st.burial, ⟨false, true⟩, st.to_bury⟩ : SimState) v
    have seg1 : ∀ pt0, flagsSeg v (stFlagsOf st v) pt0
        [(⟨.trench, .transit, st.install, st.burial,
          ⟨false, st.trench.at_site⟩⟩ : Entry)]
        (stFlagsOf (⟨⟨st.storage.capacity, st.storage.capacity⟩, st.install,
          st.burial, ⟨false, true⟩, st.to_bury⟩ : SimState) v) := by
      intro pt0
      cases v with
      | install => exact ⟨fun hne => absurd rfl hne, fun hne => absurd rfl hne⟩
      | burial => exact ⟨fun hne => absurd rfl hne, fun hne => absurd rfl hne⟩
      | trench => exact ⟨fun _ => Or.inr rfl, fun _ => rfl⟩
    have step1 := flagsSeg_append v _ (stFlagsOf st v) pt _ _ _
      (seg1 pt) (fun pt2 => hT pt2)
    exact flagsSeg_append v _ (stFlagsOf st v) pt _ _ _ step1
      (fun pt2 => ih _ pt2)

lemma bury_flagsSeg (l : List ℚ) (st : SimState) (v : AgentId) :
    ∀ pt, flagsSeg v (stFlagsOf st v) pt (bury_array_cables l st).1
      (stFlagsOf (bury_array_cables l st).2 v) := by
  intro pt
  rw [bury_array_cables_state2]
  refine flagsSeg_const v _ _ ?_ pt
  intro e he
  obtain ⟨-, hi, hb, ht, -⟩ := bury_array_cables_entries l st e he
  cases v with
  | install => exact hi
  | burial => exact hb
  | trench => exact ht



lemma install_array_cables_flagsChain (hasBurial hasTrench : Bool)
    (kwargs : Kwargs) (cable_data : List (List CableSection)) (st : SimState)
    (v : AgentId) :
    flagsChain v (stFlagsOf st v) false
      (install_array_cables hasBurial hasTrench kwargs cable_data st).1 := by
  simp only [install_array_cables]
  cases hasTrench with
  | false =>
    simp only [Bool.false_eq_true, if_false]
    cases hl : (layCables hasBurial kwargs cable_data st).2 with
    | error e =>
      simp only [hl, List.nil_append]
      exact (layCables_flagsSeg hasBurial kwargs cable_data st v).1 false
    | ok st2 =>
      simp only [hl]
      cases hasBurial with
      | false =>
        simp only [Bool.false_eq_true, if_false, List.nil_append]
        exact (layCables_flagsSeg false kwargs cable_data st v).1 false
      | true =>
        simp only [if_true, List.nil_append]
        refine flagsChain_append v _ _ false _ _
          ((layCables_flagsSeg true kwargs cable_data st v).2 false st2 hl) ?_
        intro pt2
        exact flagsChain_of_seg v _ _ _ _ (bury_flagsSeg st2.to_bury st2 v pt2)
  | true =>
    simp only [if_true]
    have hT := trenchCables_flagsSeg cable_data st v
    cases hl : (layCables hasBurial kwargs (trenchCables cable_data st).2.1
        (trenchCables cable_data st).2.2).2 with
    | error e =>
      simp only [hl]
      refine flagsChain_append v _ _ false _ _ (hT false) ?_
      intro pt2
      exact (layCables_flagsSeg hasBurial kwargs _ _ v).1 pt2
    | ok st2 =>
      simp only [hl]
      cases hasBurial with
      | false =>
        simp only [Bool.false_eq_true, if_false]
        refine flagsChain_append v _ _ false _ _ (hT false) ?_
        intro pt2
        exact (layCables_flagsSeg false kwargs _ _ v).1 pt2
      | true =>
        simp only [if_true]
        refine flagsChain_append v _ _ false _ _
          (flagsSeg_append v _ _ false _ _ _ (hT false)
            (fun pt2 => (layCables_flagsSeg true kwargs _ _ v).2 pt2 st2 hl)) ?_
        intro pt3
        exact flagsChain_of_seg v _ _ _ _ (bury_flagsSeg st2.to_bury st2 v pt3)

/-- Claim C3: for every vessel of `install_array_cables` (install, burial,
trench), at every suspension point of the run that is not that vessel's own
explicit transit step, exactly one of its `at_port` and `at_site` flags is
true, provided the vessels start with the invariant (as the initializers set
`at_port = True`, `at_site = False`); and every vessel's flags change only
around its own explicit transit steps: a vessel's snapshot differs between
consecutive suspension points only when one of the two adjacent points is
that vessel's transit, and differs from the initial state at the first
suspension point only when that point is such a transit.  In particular the
insufficient-cable reload round-trip to port and back leaves every snapshot
unchanged, its entries being flanked by the recovery transits. -/
theorem location_flags_exactly_one (hasBurial hasTrench : Bool) (kwargs : Kwargs)
    (cable_data : List (List CableSection)) (st : SimState) (h : stateOK st) :
    (∀ e ∈ (install_array_cables hasBurial hasTrench kwargs cable_data st).1,
      entryOK e) ∧
    (∀ v, flagsChain v (stFlagsOf st v) false
      (install_array_cables hasBurial hasTrench kwargs cable_data st).1) := by
  refine ⟨?_, fun v =>
    install_array_cables_flagsChain hasBurial hasTrench kwargs cable_data st v⟩
  simp only [install_array_cables]
  cases hasTrench with
  | false =>
    simp only [Bool.false_eq_true, if_false]
    cases hl : (layCables hasBurial kwargs cable_data st).2 with
    | error e =>
      intro e2 he
      simp only [List.nil_append] at he
      exact (layCables_entryOK hasBurial kwargs cable_data st h).1 e2 he
    | ok st2 =>
      have hst2 := (layCables_entryOK hasBurial kwargs cable_data st h).2 st2 hl
      cases hasBurial with
      | false =>
        intro e2 he
        simp only [Bool.false_eq_true, if_false, List.nil_append] at he
        exact (layCables_entryOK false kwargs cable_data st h).1 e2 he
      | true =>
        intro e2 he
        simp only [if_true, List.nil_append, List.mem_append] at he
        rcases he with he | he
        · exact (layCables_entryOK true kwargs cable_data st h).1 e2 he
        · exact bury_entryOK _ st2 hst2 e2 he
  | true =>
    simp only [if_true]
    have hT := trenchCables_entryOK cable_data st h
    cases hl : (layCables hasBurial kwargs (trenchCables cable_data st).2.1
        (trenchCables cable_data st).2.2).2 with
    | error e =>
      intro e2 he
      simp only [List.mem_append] at he
      rcases he with he | he
      · exact hT.1 e2 he
      · exact (layCables_entryOK hasBurial kwargs _ _ hT.2).1 e2 he
    | ok st2 =>
      have hst2 := (layCables_entryOK hasBurial kwargs _ _ hT.2).2 st2 hl
      cases hasBurial with
      | false =>
        intro e2 he
        simp only [Bool.false_eq_true, if_false, List.mem_append] at he
        rcases he with he | he
        · exact hT.1 e2 he
        · exact (layCables_entryOK false kwargs _ _ hT.2).1 e2 he
      | true =>
        intro e2 he
        simp only [if_true, List.append_assoc, List.mem_append] at he
        rcases he with he | he | he
        · exact hT.1 e2 he
        · exact (layCables_entryOK true kwargs _ _ hT.2).1 e2 he
        · exact bury_entryOK _ st2 hst2 e2 he

/-- Witness for the location-flag theorem on a run with a burial vessel and
a section list whose third unit forces a reload round-trip. -/
theorem location_flags_exactly_one_witness :
    stateOK (initState 5) ∧
    ((∀ e ∈ (install_array_cables true false [("x", 1)] [[(2, 3, some 1)]]
        (initState 5)).1, entryOK e) ∧
     (∀ v, flagsChain v (stFlagsOf (initState 5) v) false
        (install_array_cables true false [("x", 1)] [[(2, 3, some 1)]]
          (initState 5)).1)) :=
  ⟨by simp [stateOK, oneOf, initState],
   location_flags_exactly_one true false [("x", 1)] [[(2, 3, some 1)]]
     (initState 5) (by simp [stateOK, oneOf, initState])⟩

/-- Witness for the burial theorem on a completed one-section run. -/
theorem burial_buries_exactly_laid_sections_witness :
    ((initState 10).to_bury = []) ∧
    ((install_array_cables true false [] [[(1, 1, none)]] (initState 10)).2 =
      .ok ⟨⟨10, 9⟩, ⟨true, false⟩, ⟨true, false⟩, ⟨true, false⟩, [1]⟩) ∧
    (layBuryCount (install_array_cables true false [] [[(1, 1, none)]] (initState 10)).1 = 0 ∧
     buriedLengths (install_array_cables true false [] [[(1, 1, none)]] (initState 10)).1 =
       laidLengths (install_array_cables true false [] [[(1, 1, none)]] (initState 10)).1 ∧
     (⟨⟨10, 9⟩, ⟨true, false⟩, ⟨true, false⟩, ⟨true, false⟩, [1]⟩ : SimState).to_bury =
       laidLengths (install_array_cables true false [] [[(1, 1, none)]] (initState 10)).1) :=
  ⟨by decide,
   by norm_num [install_array_cables, layCables, installOneCable, processSections,
     layUnits, layUnitSteps, getSectionRetry, CableStorage.get_cable,
     CableStorage.reset, loadStorage, sectionSpecs, initState, bury_array_cables,
     SimState.emit],
   burial_buries_exactly_laid_sections false [] [[(1, 1, none)]] (initState 10)
     ⟨⟨10, 9⟩, ⟨true, false⟩, ⟨true, false⟩, ⟨true, false⟩, [1]⟩
     (by decide)
     (by norm_num [install_array_cables, layCables, installOneCable, processSections,
       layUnits, layUnitSteps, getSectionRetry, CableStorage.get_cable,
       CableStorage.reset, loadStorage, sectionSpecs, initState, bury_array_cables,
       SimState.emit])⟩

/-- Witness for the per-agent contiguity theorem on two agents. -/
theorem agent_log_contiguous_witness :
    (([("a", [(1 : ℚ), 2]), ("b", [3])].map Prod.fst).Nodup) ∧
    (("a", [(1 : ℚ), 2]) ∈ [("a", [(1 : ℚ), 2]), ("b", [3])]) ∧
    ((runScheduler [("a", [(1 : ℚ), 2]), ("b", [3])]).filter
        (fun e => e.agent == "a") = prefixEntries ("a") 0 [(1 : ℚ), 2] ∧
     contiguousFrom 0 ((runScheduler [("a", [(1 : ℚ), 2]), ("b", [3])]).filter
        (fun e => e.agent == "a")) ∧
     ((∀ d ∈ [(1 : ℚ), 2], 0 ≤ d) →
       List.Chain' (fun x y : LogEntry => x.time ≤ y.time)
         ((runScheduler [("a", [(1 : ℚ), 2]), ("b", [3])]).filter
           (fun e => e.agent == "a")))) :=
  ⟨by decide, by decide,
   agent_log_contiguous [("a", [(1 : ℚ), 2]), ("b", [3])] (by decide)
     ("a", [(1 : ℚ), 2]) (by decide)⟩

/-- Witness for the date-pinned start-offset theorem: phases pinned 61
calendar days apart start 1464 hours apart on the project timeline. -/
theorem date_pinned_phase_start_offsets_witness :
    contiguousFrom 0 [(⟨"a", 2, 2⟩ : LogEntry)] ∧
    contiguousFrom 0 [(⟨"b", 5, 5⟩ : LogEntry)] ∧
    (projectActions 3 [(⟨"a", 2, 2⟩ : LogEntry)]).head? = some ⟨"a", 74, 2⟩ ∧
    (projectActions 64 [(⟨"b", 5, 5⟩ : LogEntry)]).head? = some ⟨"b", 1541, 5⟩ ∧
    ((⟨"b", 1541, 5⟩ : LogEntry).time - (⟨"b", 1541, 5⟩ : LogEntry).duration) -
      ((⟨"a", 74, 2⟩ : LogEntry).time - (⟨"a", 74, 2⟩ : LogEntry).duration) =
      ((64 - 3 : ℤ) : ℚ) * 24 :=
  ⟨⟨by norm_num, trivial⟩, ⟨by norm_num, trivial⟩,
   by simp [projectActions]; norm_num, by simp [projectActions]; norm_num,
   date_pinned_phase_start_offsets 3 64 [⟨"a", 2, 2⟩] [⟨"b", 5, 5⟩]
     ⟨"a", 74, 2⟩ ⟨"b", 1541, 5⟩
     ⟨by norm_num, trivial⟩ ⟨by norm_num, trivial⟩
     (by simp [projectActions]; norm_num) (by simp [projectActions]; norm_num)⟩

/-- Witness for the configuration-preservation theorem on a two-cable
store. -/
theorem config_sections_unchanged_witness :
    (∀ r ∈ [0, 1], r < ([[((1 : ℚ), 1, none)], [((2 : ℚ), 2, some 3)]] : Store).length) ∧
    ((∀ r ∈ [0, 1],
      (consumeRefs (setup_copies [[((1 : ℚ), 1, none)], [((2 : ℚ), 2, some 3)]] [0, 1]).1
          (setup_copies [[((1 : ℚ), 1, none)], [((2 : ℚ), 2, some 3)]] [0, 1]).2).getD r [] =
        ([[((1 : ℚ), 1, none)], [((2 : ℚ), 2, some 3)]] : Store).getD r []) ∧
    (∀ i < ([0, 1] : List ℕ).length,
      (setup_copies [[((1 : ℚ), 1, none)], [((2 : ℚ), 2, some 3)]] [0, 1]).1.getD
          ((setup_copies [[((1 : ℚ), 1, none)], [((2 : ℚ), 2, some 3)]] [0, 1]).2.getD i 0) [] =
        ([[((1 : ℚ), 1, none)], [((2 : ℚ), 2, some 3)]] : Store).getD
          (([0, 1] : List ℕ).getD i 0) []) ∧
    (∀ r ∈ (setup_copies [[((1 : ℚ), 1, none)], [((2 : ℚ), 2, some 3)]] [0, 1]).2,
      (consumeRefs (setup_copies [[((1 : ℚ), 1, none)], [((2 : ℚ), 2, some 3)]] [0, 1]).1
          (setup_copies [[((1 : ℚ), 1, none)], [((2 : ℚ), 2, some 3)]] [0, 1]).2).getD r [] =
        [])) :=
  ⟨by decide,
   config_sections_unchanged [[((1 : ℚ), 1, none)], [((2 : ℚ), 2, some 3)]] [0, 1]
     (by decide)⟩

/-- Witness for the speed-forwarding theorem with a burial vessel. -/
theorem section_speed_forwarding_witness :
    ((1 : ℚ) ≤ (initState 10).storage.capacity) ∧
    ((laySpecsList (install_array_cables true false [("x", 5)] [[(1, 1, some 7)]]
        (initState 10)).1 =
      [dictInsert [("x", 5)]
        (if true then ("cable_lay_speed") else ("cable_lay_bury_speed")) 7]) ∧
    (laySpecsList (install_array_cables true false [("x", 5)] [[(1, 1, none)]]
        (initState 10)).1 = [[("x", 5)]]) ∧
    (∀ k2, k2 ≠ (if true then ("cable_lay_speed") else ("cable_lay_bury_speed")) →
      dictLookup (dictInsert [("x", 5)]
        (if true then ("cable_lay_speed") else ("cable_lay_bury_speed")) 7) k2 =
      dictLookup [("x", 5)] k2) ∧
    (dictLookup (dictInsert [("x", 5)]
        (if true then ("cable_lay_speed") else ("cable_lay_bury_speed")) 7)
      (if true then ("cable_lay_speed") else ("cable_lay_bury_speed")) = some 7)) :=
  ⟨by decide, section_speed_forwarding true [("x", 5)] 1 7 (initState 10) (by decide)⟩

end Orbit
